import Mathlib

/-!
Shallow embedding of the storm query-execution engine (`synapse/lib/storm.py`)
and proofs about its permission gate, stream stages, graph traversal and tag
rename command.  Python generators are modelled as the list of elements they
yield when drained by their downstream consumer; mutable state is passed
explicitly; raising an exception is modelled with `Except`.
-/

set_option linter.unusedVariables false

namespace Storm

/-! ### Permission gate and runtime context (`Runtime.elevate`, `Runtime.allowed`) -/

/-- An auth principal: an `admin` flag and a name (the rule evaluation
`user.allowed(args)` is passed per call, since rule state may change
between calls). -/
structure AuthUser where
  name : String
  admin : Bool
deriving DecidableEq, Repr

/-- The runtime state relevant to permission checking: the optional attached
principal, the elevation flag, and the memoization cache of `Runtime.allowed`
(the `@s_cache.memoize(size=100)` decorator, storm.py line 100).

Modelled from the spec: `s_cache.memoize` itself is not under `src/`; per the
spec (section 4.2) it memoizes successful completions keyed by the exact
ordered argument tuple, while a call that raises caches nothing. -/
structure Runtime where
  user : Option AuthUser
  elevated : Bool
  cache : List (List String)
deriving DecidableEq, Repr

/-- `Runtime.allowed(*args)` (storm.py lines 100-115).  `rules` is the
principal rule state at the moment of this call (`self.user.allowed(args,
elev=False)`); it is a parameter because the principal rule state may differ
between calls.  On success the updated runtime (with the call now memoized)
is returned; on denial an `AuthDeny` message is returned and the runtime is
unchanged — in particular nothing is cached ("fails will not be cached"). -/
def Runtime.allowed (rt : Runtime) (rules : List String → Bool) (args : List String) :
    Except String Runtime :=
  if rt.cache.contains args then
    Except.ok rt
  else if rt.user.isNone then
    Except.ok { rt with cache := args :: rt.cache }
  else if rt.elevated then
    Except.ok { rt with cache := args :: rt.cache }
  else if rules args then
    Except.ok { rt with cache := args :: rt.cache }
  else
    Except.error ("AuthDeny: " ++ String.intercalate "." args)

/-- `Runtime.elevate()` (storm.py lines 50-56): if a principal is attached it
must be an admin (`AuthDeny` otherwise), then the elevation flag is set. -/
def Runtime.elevate (rt : Runtime) : Except String Runtime :=
  match rt.user with
  | some u =>
      if !u.admin then Except.error ("AuthDeny: user is not admin " ++ u.name)
      else Except.ok { rt with elevated := true }
  | none => Except.ok { rt with elevated := true }

/-! ### `limit` (LimitCmd.runStormCmd, storm.py lines 246-254) -/

/-- One step of `for count, item in enumerate(genr): if count >= n: break;
yield item`, with the upstream generator modelled as the list of elements it
can produce and the stage drained by its downstream consumer.  Returns the
yielded elements paired with the number of elements pulled from upstream
(calls of `next(genr)` that returned an item); `c` is the running
`enumerate` index. -/
def limitGo (n : Int) (c : Nat) : List α → List α × Nat
  | [] => ([], 0)
  | x :: xs =>
    if (c : Int) ≥ n then ([], 1)
    else
      let r := limitGo n (c + 1) xs
      (x :: r.1, r.2 + 1)

/-- `LimitCmd.runStormCmd` over a fully drained upstream: yielded elements
and the count of upstream pulls. -/
def limitRun (n : Int) (genr : List α) : List α × Nat :=
  limitGo n 0 genr

/-! ### `count` (CountCmd.runStormCmd, storm.py lines 513-519) -/

/-- `i = 0; for i, (node, path) in enumerate(genr, 1): yield node, path`:
forwards every element while tracking the 1-based `enumerate` counter,
which stays at its initial value when the loop never runs. -/
def countGo : List α → Nat → List α × Nat
  | [], i => ([], i)
  | x :: xs, i =>
    let r := countGo xs (i + 1)
    (x :: r.1, r.2)

/-- `CountCmd.runStormCmd`: forwarded elements plus the printed message. -/
def countRun (genr : List α) : List α × String :=
  let r := countGo genr 0
  (r.1, "Counted " ++ toString r.2 ++ " nodes.")

/-! ### `noderefs` (NoderefsCmd, storm.py lines 619-684)

The adjacency enumeration `getRefs` (pivot-out, pivot-in, free ndef
references, optional edge traversal) only consults storage and model
collaborators; the traversal logic of `doRefs`/`runStormCmd` treats it as an
opaque per-node candidate stream, so it is abstracted as a function
`refs : SNode → List SNode`.  Paths are tracked by their hop count: each
`srcpath.fork(pivo)` appends one hop, so a node yielded in round `r` carries
hop count `r`. -/

/-- A graph node as seen by the traversal: unique buid, form name
(`node.ndef[0]`), applied tag names (`node.tags.keys()`). -/
structure SNode where
  buid : Nat
  form : String
  tags : List String
deriving DecidableEq, Repr

/-- Parsed options of the noderefs command (`traverse-edge` only affects the
abstracted adjacency enumeration). -/
structure RefsOpts where
  degrees : Int
  join : Bool
  omitTraversalForms : List String
  omitTraversalTags : List String
  omitForms : List String
  omitTags : List String
  unique : Bool
deriving Repr

/-- `pnode.ndef[0] in self.omit_forms or self.omit_tags.intersection(set(pnode.tags.keys()))`
(storm.py lines 670-672): the node is excluded entirely. -/
def omitted (opts : RefsOpts) (n : SNode) : Bool :=
  opts.omitForms.contains n.form || opts.omitTags.any (fun t => n.tags.contains t)

/-- `pnode.ndef[0] in self.omit_traversal_forms or
self.omit_traversal_tags.intersection(set(pnode.tags.keys()))` (storm.py
lines 678-681): the node is yielded but not traversed further. -/
def traversalOmitted (opts : RefsOpts) (n : SNode) : Bool :=
  opts.omitTraversalForms.contains n.form ||
    opts.omitTraversalTags.any (fun t => n.tags.contains t)

/-- The inner candidate loop of `doRefs` (storm.py lines 665-684): for each
candidate from `getRefs`, skip if visited, mark visited, skip entirely if
omitted, yield (with hop count `depth`), and enqueue unless
traversal-omitted.  Returns (yields, visited, enqueued). -/
def procCands (opts : RefsOpts) (depth : Nat) :
    List SNode → List Nat → List (SNode × Nat) × List Nat × List SNode
  | [], visited => ([], visited, [])
  | c :: cs, visited =>
    if visited.contains c.buid then
      procCands opts depth cs visited
    else
      let visited2 := c.buid :: visited
      if omitted opts c then
        procCands opts depth cs visited2
      else
        let r := procCands opts depth cs visited2
        if traversalOmitted opts c then
          ((c, depth) :: r.1, r.2.1, r.2.2)
        else
          ((c, depth) :: r.1, r.2.1, c :: r.2.2)

/-- The `while True: snode, spath = srcqueue.pop()` loop of one round
(storm.py lines 657-684).  `srcqueue.pop()` pops from the right of the
deque, so the caller passes the queue already in processing order.  Returns
(yields, visited, newqueue in append order). -/
def procQueue (opts : RefsOpts) (refs : SNode → List SNode) (depth : Nat) :
    List SNode → List Nat → List (SNode × Nat) × List Nat × List SNode
  | [], visited => ([], visited, [])
  | s :: ss, visited =>
    let r1 := procCands opts depth (refs s) visited
    let r2 := procQueue opts refs depth ss r1.2.1
    (r1.1 ++ r2.1, r2.2.1, r1.2.2 ++ r2.2.2)

/-- The `while degrees:` loop of `doRefs` (storm.py lines 653-684): `d`
remaining rounds, `depth` hops of the nodes in `srcqueue` (deque order,
reversed before processing because `pop()` pops from the right). -/
def doRefsLoop (opts : RefsOpts) (refs : SNode → List SNode) :
    Nat → Nat → List SNode → List Nat → List (SNode × Nat) × List Nat
  | 0, _, _, visited => ([], visited)
  | d + 1, depth, srcqueue, visited =>
    let r := procQueue opts refs (depth + 1) srcqueue.reverse visited
    let r2 := doRefsLoop opts refs d (depth + 1) r.2.2 r.2.1
    (r.1 ++ r2.1, r2.2)

/-- `NoderefsCmd.doRefs` (storm.py lines 646-684): run `degrees` rounds
starting from the queue holding only the source. -/
def doRefs (opts : RefsOpts) (refs : SNode → List SNode) (srcnode : SNode)
    (visited : List Nat) : List (SNode × Nat) × List Nat :=
  doRefsLoop opts refs opts.degrees.toNat 0 [srcnode] visited

/-- The per-source loop of `NoderefsCmd.runStormCmd` (storm.py lines
634-644): one output segment per upstream source (the `join` emission of
the source carries hop count 0, then the traversal yields); the visited set
resets per source unless `unique`, and the source buid is always added
before traversal. -/
def noderefsSegs (opts : RefsOpts) (refs : SNode → List SNode) :
    List SNode → List Nat → List (List (SNode × Nat))
  | [], _ => []
  | s :: ss, visited =>
    let v1 := s.buid :: (if opts.unique then visited else [])
    let r := doRefs opts refs s v1
    ((if opts.join then [(s, 0)] else []) ++ r.1) :: noderefsSegs opts refs ss r.2

/-- `NoderefsCmd.runStormCmd` (storm.py lines 619-644): validate `degrees`
(`BadOperArg` when < 1), then traverse from each source. -/
def noderefsRun (opts : RefsOpts) (refs : SNode → List SNode)
    (sources : List SNode) : Except String (List (List (SNode × Nat))) :=
  if opts.degrees < 1 then
    Except.error "BadOperArg: degrees must be greater than or equal to 1"
  else
    Except.ok (noderefsSegs opts refs sources [])

/-- The nodes whose adjacency `doRefsLoop` enumerates (an observation of the
same rounds: each round consults `refs` exactly on the processed queue). -/
def doRefsLoopTrace (opts : RefsOpts) (refs : SNode → List SNode) :
    Nat → Nat → List SNode → List Nat → List SNode
  | 0, _, _, _ => []
  | d + 1, depth, srcqueue, visited =>
    let r := procQueue opts refs (depth + 1) srcqueue.reverse visited
    srcqueue.reverse ++ doRefsLoopTrace opts refs d (depth + 1) r.2.2 r.2.1

/-- The nodes traversed through by `doRefs`. -/
def doRefsTrace (opts : RefsOpts) (refs : SNode → List SNode) (srcnode : SNode)
    (visited : List Nat) : List SNode :=
  doRefsLoopTrace opts refs opts.degrees.toNat 0 [srcnode] visited

/-- The buids of a yield list. -/
def buids (ys : List (SNode × Nat)) : List Nat :=
  ys.map (fun y => y.1.buid)

/-- The buids yielded with a nonzero hop count: the traversal-proper output
of a segment, excluding the `join` emission of the source (hop count 0). -/
def travBuids (seg : List (SNode × Nat)) : List Nat :=
  buids (seg.filter (fun y => y.2 != 0))

/-! ### `movetag` (MoveTagCmd.runStormCmd, storm.py lines 425-480) -/

/-- Character-level starts-with: the `^=` string comparator and the Python
slice `tagstr[oldsize:]` both operate on the character sequence. -/
def strStarts (p s : String) : Bool := p.data.isPrefixOf s.data

/-- `newtag = newstr + tagstr[oldsize:]` (storm.py line 444). -/
def renameTag (oldstr newstr tagstr : String) : String :=
  ⟨newstr.data ++ tagstr.data.drop oldstr.length⟩

/-- A `syn:tag` tag-definition node: its primary value (the tag name) and
the secondary properties movetag reads and writes. -/
structure TagDef where
  name : String
  doc : Option String
  title : Option String
  isnow : Option String
deriving DecidableEq, Repr

/-- A data node as movetag sees it: identity plus tag applications
(tag name → optional value, e.g. a time interval). -/
structure DataNode where
  buid : Nat
  tags : List (String × Option (Nat × Nat))
deriving DecidableEq, Repr

/-- The store slice movetag touches. -/
structure Store where
  tagdefs : List TagDef
  nodes : List DataNode
deriving DecidableEq, Repr

/-- The tag definition with the given name (live object lookup). -/
def getTagDef (defs : List TagDef) (x : String) : Option TagDef :=
  defs.find? (fun d => d.name == x)

/-- `node.get('isnow')` of the definition named `x`. -/
def isnowOf (defs : List TagDef) (x : String) : Option String :=
  (getTagDef defs x).bind (fun d => d.isnow)

/-- `node.get('doc')` of the definition named `x`. -/
def docOf (defs : List TagDef) (x : String) : Option String :=
  (getTagDef defs x).bind (fun d => d.doc)

/-- `node.get('title')` of the definition named `x`. -/
def titleOf (defs : List TagDef) (x : String) : Option String :=
  (getTagDef defs x).bind (fun d => d.title)

/-- Modelled from the spec: `snap.addNode('syn:tag', name)` — the storage
collaborator is not under src/.  Per spec section 6, `addNode(form, value)`
creates the node when absent and otherwise returns the existing one
unchanged. -/
def addTagDef (defs : List TagDef) (nm : String) : List TagDef :=
  if defs.any (fun d => d.name == nm) then defs
  else defs ++ [⟨nm, none, none, none⟩]

/-- `node.set(prop, valu)` on the tag definition named `nm`. -/
def updateDef (defs : List TagDef) (nm : String) (g : TagDef → TagDef) :
    List TagDef :=
  defs.map (fun d => if d.name = nm then g d else d)

def setDoc (defs : List TagDef) (nm v : String) : List TagDef :=
  updateDef defs nm (fun d => { d with doc := some v })

def setTitle (defs : List TagDef) (nm v : String) : List TagDef :=
  updateDef defs nm (fun d => { d with title := some v })

def setIsnow (defs : List TagDef) (nm v : String) : List TagDef :=
  updateDef defs nm (fun d => { d with isnow := some v })

/-- Modelled from the spec: `snap.getNodesBy('syn:tag', oldstr, cmpr='^=')`
(storm.py line 437) — the storage collaborator is not under src/.  `^=` is
the starts-with comparator (spec section 6 gives only the signature
`getNodesBy(selector, value, comparator)`), so the loop enumerates every
tag definition whose name has `oldstr` as a string prefix, snapshotted in
store order. -/
def tagNamesByPre (defs : List TagDef) (p : String) : List String :=
  (defs.filter (fun d => strStarts p d.name)).map (fun d => d.name)

/-- One iteration of the definition-rewrite loop (storm.py lines 437-457):
exact match only forwards `isnow`; a longer match creates the renamed
definition, copies `doc`/`title` when present, records the mapping and
forwards `isnow`. -/
def moveTagDefStep (oldstr newstr : String)
    (s : List TagDef × List (String × String)) (tagstr : String) :
    List TagDef × List (String × String) :=
  if tagstr = oldstr then
    (setIsnow s.1 tagstr newstr, s.2)
  else
    let newtag := renameTag oldstr newstr tagstr
    let defs1 := addTagDef s.1 newtag
    let defs2 := match (getTagDef defs1 tagstr).bind (fun d => d.doc) with
      | some v => setDoc defs1 newtag v
      | none => defs1
    let defs3 := match (getTagDef defs2 tagstr).bind (fun d => d.title) with
      | some v => setTitle defs2 newtag v
      | none => defs2
    (setIsnow defs3 tagstr newtag, s.2 ++ [(tagstr, newtag)])

/-- Phase 1 (storm.py lines 427-457): the `syn:tag` roots for both names
are ensured first (`snap.addNode`), then every enumerated definition is
rewritten, accumulating the old-name → new-name `retag` map, seeded with
the exact pair. -/
def moveTagPhase1 (oldstr newstr : String) (defs : List TagDef) :
    List TagDef × List (String × String) :=
  (tagNamesByPre defs oldstr).foldl (moveTagDefStep oldstr newstr)
    (defs, [(oldstr, newstr)])

/-- `retag.get(name)`. -/
def lookupRetag (retag : List (String × String)) (x : String) : Option String :=
  (retag.find? (fun kv => kv.1 == x)).map (fun kv => kv.2)

/-- Modelled from the spec: the tag lift `snap.getNodesBy(f'#{oldstr}')`
(storm.py line 461) is not under src/.  Per spec section 4.5 it returns
every node carrying `oldstr`, "matched by prefix across the whole subtree
using the original oldtag": some applied tag equals `oldstr` or nests under
it in the dotted hierarchy. -/
def hasTagUnder (n : DataNode) (oldstr : String) : Bool :=
  n.tags.any (fun tv => tv.1 == oldstr || strStarts (oldstr ++ ".") tv.1)

/-- Modelled from the spec: `node.delTag(name)` — the node mutator is not
under src/; per spec section 4.5 it removes the old application. -/
def delTag (n : DataNode) (nm : String) : DataNode :=
  { n with tags := n.tags.filter (fun tv => tv.1 != nm) }

/-- Modelled from the spec: `node.addTag(name, valu)` — the node mutator is
not under src/; per spec section 4.5 it adds the application with the given
value (overwriting an existing application of the same name). -/
def addTag (n : DataNode) (nm : String) (valu : Option (Nat × Nat)) : DataNode :=
  if n.tags.any (fun tv => tv.1 == nm) then
    { n with tags := n.tags.map (fun tv => if tv.1 = nm then (nm, valu) else tv) }
  else
    { n with tags := n.tags ++ [(nm, valu)] }

/-- Code-point lexicographic order on character lists: the comparison
Python's `sort` applies to strings. -/
def listLe : List Char → List Char → Bool
  | [], _ => true
  | _ :: _, [] => false
  | a :: as, b :: bs =>
    if a.val < b.val then true
    else if b.val < a.val then false
    else listLe as bs

/-- `tags = list(node.tags.items()); tags.sort(reverse=True)` (storm.py
lines 465-466): the application snapshot in reverse lexical order (tag
names are unique on a node, so the sort compares names). -/
def sortTagsDesc (tags : List (String × Option (Nat × Nat))) :
    List (String × Option (Nat × Nat)) :=
  tags.insertionSort (fun a b => listLe b.1.data a.1.data = true)

/-- The retagging of one lifted node (storm.py lines 463-475): walk the
sorted snapshot; every application whose name is in `retag` is removed and
re-added under the mapped name with the identical snapshot value. -/
def retagNode (retag : List (String × String)) (n : DataNode) : DataNode :=
  (sortTagsDesc n.tags).foldl
    (fun nd tv =>
      match lookupRetag retag tv.1 with
      | none => nd
      | some newt => addTag (delTag nd tv.1) newt tv.2) n

/-- Phase 2 (storm.py lines 459-475): retag every node carrying the old
tag tree; other nodes are untouched. -/
def moveTagPhase2 (oldstr : String) (retag : List (String × String))
    (nodes : List DataNode) : List DataNode :=
  nodes.map (fun n => if hasTagUnder n oldstr then retagNode retag n else n)

/-- `MoveTagCmd.runStormCmd` (storm.py lines 425-477) as a store transform
(the node stream itself is forwarded unchanged). -/
def moveTag (oldtag newtag : String) (st : Store) : Store :=
  let defs0 := addTagDef st.tagdefs oldtag
  let defs1 := addTagDef defs0 newtag
  let p1 := moveTagPhase1 oldtag newtag defs1
  { tagdefs := p1.1, nodes := moveTagPhase2 oldtag p1.2 st.nodes }

/-- The tag names present in a definition list. -/
def namesOf (defs : List TagDef) : List String :=
  defs.map (fun d => d.name)

/-- Mutually prefix-free rename arguments: neither tag name is a
character-level prefix of the other. -/
def PreFree (oldstr newstr : String) : Prop :=
  strStarts oldstr newstr = false ∧ strStarts newstr oldstr = false

/-- The definition list after the two unconditional `addNode('syn:tag', ...)`
upserts of oldtag and newtag (storm.py lines 433-434). -/
def phase1Defs (o n : String) (st : Store) : List TagDef :=
  addTagDef (addTagDef st.tagdefs o) n

/-- The names enumerated by phase 1's lift
`getNodesBy('syn:tag', oldstr, cmpr='^=')` (storm.py line 436). -/
def phase1Enum (o n : String) (st : Store) : List String :=
  tagNamesByPre (phase1Defs o n st) o

/-! ### Theorems: permission gate -/

/-- Characterization of a denial of `Runtime.allowed`. -/
theorem allowed_error_elim (rt : Runtime) (rules : List String → Bool)
    (args : List String) (e : String) (herr : rt.allowed rules args = Except.error e) :
    args ∉ rt.cache ∧ rt.user ≠ none ∧ rt.elevated ≠ true ∧ rules args ≠ true := by
  by_cases h1 : args ∈ rt.cache
  · simp [Runtime.allowed, h1] at herr
  by_cases h2 : rt.user = none
  · simp [Runtime.allowed, h1, h2] at herr
  by_cases h3 : rt.elevated = true
  · simp [Runtime.allowed, h1, h2, h3] at herr
  by_cases h4 : rules args = true
  · simp [Runtime.allowed, h1, h2, h3, h4] at herr
  exact ⟨h1, h2, h3, h4⟩

/-- Any successful `Runtime.allowed` call leaves the queried path in the cache. -/
theorem allowed_ok_cached (rt : Runtime) (rules : List String → Bool)
    (args : List String) (rt2 : Runtime) (hok : rt.allowed rules args = Except.ok rt2) :
    args ∈ rt2.cache := by
  by_cases h1 : args ∈ rt.cache
  · have : rt = rt2 := by simpa [Runtime.allowed, h1] using hok
    rw [← this]; exact h1
  · have hrt2 : rt2 = { rt with cache := args :: rt.cache } := by
      by_cases h2 : rt.user = none
      · simpa [Runtime.allowed, h1, h2] using hok.symm
      by_cases h3 : rt.elevated = true
      · simpa [Runtime.allowed, h1, h2, h3] using hok.symm
      by_cases h4 : rules args = true
      · simpa [Runtime.allowed, h1, h2, h3, h4] using hok.symm
      · simp [Runtime.allowed, h1, h2, h3, h4] at hok
    rw [hrt2]
    exact List.mem_cons_self _ _

/-- C3: a denied `Runtime.allowed` call is never cached — after a denial the
runtime is unchanged, so an identical second call re-evaluates the (possibly
changed) principal rules: it denies again under the same rules and succeeds
under rules that now grant the path.  A successful call is memoized by the
exact ordered path: a repeated call on the resulting runtime succeeds
without consulting the rules (for any rule state) and leaves the runtime
unchanged for the query's lifetime. -/
theorem runtime_allowed_deny_not_cached (rt : Runtime) (rules rules2 : List String → Bool)
    (args : List String) :
    (∀ e, rt.allowed rules args = Except.error e →
      rt.allowed rules args = Except.error e ∧
      (rules2 args = true →
        rt.allowed rules2 args = Except.ok { rt with cache := args :: rt.cache })) ∧
    (∀ rt2, rt.allowed rules args = Except.ok rt2 →
      rt2.allowed rules2 args = Except.ok rt2) := by
  constructor
  · intro e herr
    obtain ⟨h1, h2, h3, h4⟩ := allowed_error_elim rt rules args e herr
    refine ⟨herr, fun hr2 => ?_⟩
    simp [Runtime.allowed, h1, h2, h3, hr2]
  · intro rt2 hok
    have hc := allowed_ok_cached rt rules args rt2 hok
    simp [Runtime.allowed, hc]


/-- Witness for C3 at a concrete denied and granted path. -/
theorem runtime_allowed_deny_not_cached_witness :
    Runtime.allowed ⟨some ⟨"visi", false⟩, false, []⟩ (fun _ => false) ["foo", "bar"]
      = Except.error "AuthDeny: foo.bar" ∧
    Runtime.allowed ⟨some ⟨"visi", false⟩, false, []⟩ (fun _ => true) ["foo", "bar"]
      = Except.ok ⟨some ⟨"visi", false⟩, false, [["foo", "bar"]]⟩ := by
  have h := runtime_allowed_deny_not_cached ⟨some ⟨"visi", false⟩, false, []⟩
    (fun _ => false) (fun _ => true) ["foo", "bar"]
  have herr : Runtime.allowed ⟨some ⟨"visi", false⟩, false, []⟩ (fun _ => false) ["foo", "bar"]
      = Except.error "AuthDeny: foo.bar" := rfl
  exact ⟨(h.1 _ herr).1, (h.1 _ herr).2 rfl⟩

/-- C9: `Runtime.elevate` with an attached principal fails with `AuthDeny`
exactly when the principal is not administrative; on success it sets the
elevation flag, and on any elevated runtime every permission check succeeds
(and keeps the runtime elevated, so all later checks succeed too). -/
theorem runtime_elevate_spec (rt : Runtime) (u : AuthUser) (h : rt.user = some u) :
    (u.admin = false →
      rt.elevate = Except.error ("AuthDeny: user is not admin " ++ u.name)) ∧
    (u.admin = true → rt.elevate = Except.ok { rt with elevated := true }) ∧
    (∀ rt2 : Runtime, rt2.elevated = true →
      ∀ (rules : List String → Bool) (args : List String),
        ∃ rt3, rt2.allowed rules args = Except.ok rt3 ∧ rt3.elevated = true) := by
  refine ⟨fun ha => ?_, fun ha => ?_, fun rt2 he rules args => ?_⟩
  · simp [Runtime.elevate, h, ha]
  · simp [Runtime.elevate, h, ha]
  · by_cases h1 : args ∈ rt2.cache
    · exact ⟨rt2, by simp [Runtime.allowed, h1], he⟩
    by_cases h2 : rt2.user = none
    · exact ⟨{ rt2 with cache := args :: rt2.cache }, by simp [Runtime.allowed, h1, h2], he⟩
    · exact ⟨{ rt2 with cache := args :: rt2.cache }, by simp [Runtime.allowed, h1, h2, he], he⟩

/-- Witness for C9: an admin principal elevates and then passes a check. -/
theorem runtime_elevate_spec_witness :
    Runtime.elevate ⟨some ⟨"root", true⟩, false, []⟩
      = Except.ok ⟨some ⟨"root", true⟩, true, []⟩ ∧
    ∃ rt3, Runtime.allowed ⟨some ⟨"root", true⟩, true, []⟩ (fun _ => false) ["node:add"]
      = Except.ok rt3 ∧ rt3.elevated = true := by
  have h := runtime_elevate_spec ⟨some ⟨"root", true⟩, false, []⟩ ⟨"root", true⟩ rfl
  exact ⟨h.2.1 rfl, h.2.2 ⟨some ⟨"root", true⟩, true, []⟩ rfl (fun _ => false) ["node:add"]⟩

/-! ### Theorems: `noderefs` traversal invariants -/

@[simp] theorem buids_nil : buids [] = [] := rfl

@[simp] theorem buids_cons (y : SNode × Nat) (ys : List (SNode × Nat)) :
    buids (y :: ys) = y.1.buid :: buids ys := rfl

@[simp] theorem buids_append (a b : List (SNode × Nat)) :
    buids (a ++ b) = buids a ++ buids b := by simp [buids]

theorem mem_buids {b : Nat} {l : List (SNode × Nat)} :
    b ∈ buids l ↔ ∃ y ∈ l, y.1.buid = b := by simp [buids]

/-- Invariant of the candidate loop: the visited set only grows; every yield
was unvisited, is now visited, carries the round hop count and is not
omitted; yields never repeat a buid; every enqueued node is a non-omitted,
non-traversal-omitted yield. -/
theorem procCands_inv (opts : RefsOpts) (depth : Nat) :
    ∀ (cs : List SNode) (visited : List Nat),
      (∀ b ∈ visited, b ∈ (procCands opts depth cs visited).2.1) ∧
      (∀ y ∈ (procCands opts depth cs visited).1,
        y.1.buid ∈ (procCands opts depth cs visited).2.1 ∧
          y.1.buid ∉ visited ∧ y.2 = depth ∧ omitted opts y.1 = false) ∧
      (buids (procCands opts depth cs visited).1).Nodup ∧
      (∀ q ∈ (procCands opts depth cs visited).2.2,
        omitted opts q = false ∧ traversalOmitted opts q = false ∧
          ∃ y ∈ (procCands opts depth cs visited).1, y.1 = q) := by
  intro cs
  induction cs with
  | nil =>
    intro visited
    simp [procCands]
  | cons c cs ih =>
    intro visited
    by_cases h1 : c.buid ∈ visited
    · have heq : procCands opts depth (c :: cs) visited
          = procCands opts depth cs visited := by
        simp [procCands, h1]
      rw [heq]
      exact ih visited
    · obtain ⟨iha, ihb, ihc, ihd⟩ := ih (c.buid :: visited)
      by_cases h2 : omitted opts c = true
      · have heq : procCands opts depth (c :: cs) visited
            = procCands opts depth cs (c.buid :: visited) := by
          simp [procCands, h1, h2]
        rw [heq]
        refine ⟨fun b hb => iha b (List.mem_cons_of_mem _ hb), fun y hy => ?_, ihc, ihd⟩
        obtain ⟨hy1, hy2, hy3, hy4⟩ := ihb y hy
        exact ⟨hy1, fun hm => hy2 (List.mem_cons_of_mem _ hm), hy3, hy4⟩
      · have h2f : omitted opts c = false := by simpa using h2
        have hnotin : c.buid ∉ buids (procCands opts depth cs (c.buid :: visited)).1 := by
          intro hmem
          obtain ⟨y, hy, hyb⟩ := mem_buids.mp hmem
          exact (ihb y hy).2.1 (by rw [hyb]; exact List.mem_cons_self _ _)
        by_cases h3 : traversalOmitted opts c = true
        · have heq : procCands opts depth (c :: cs) visited
              = ((c, depth) :: (procCands opts depth cs (c.buid :: visited)).1,
                 (procCands opts depth cs (c.buid :: visited)).2.1,
                 (procCands opts depth cs (c.buid :: visited)).2.2) := by
            simp [procCands, h1, h2f, h3]
          rw [heq]
          refine ⟨fun b hb => iha b (List.mem_cons_of_mem _ hb), fun y hy => ?_, ?_, ?_⟩
          · rcases List.mem_cons.mp hy with hy0 | hyr
            · subst hy0
              exact ⟨iha c.buid (List.mem_cons_self _ _), h1, rfl, h2f⟩
            · obtain ⟨hy1, hy2, hy3, hy4⟩ := ihb y hyr
              exact ⟨hy1, fun hm => hy2 (List.mem_cons_of_mem _ hm), hy3, hy4⟩
          · exact List.nodup_cons.mpr ⟨hnotin, ihc⟩
          · intro q hq
            obtain ⟨hqo, hqt, y, hy, hyq⟩ := ihd q hq
            exact ⟨hqo, hqt, y, List.mem_cons_of_mem _ hy, hyq⟩
        · have h3f : traversalOmitted opts c = false := by simpa using h3
          have heq : procCands opts depth (c :: cs) visited
              = ((c, depth) :: (procCands opts depth cs (c.buid :: visited)).1,
                 (procCands opts depth cs (c.buid :: visited)).2.1,
                 c :: (procCands opts depth cs (c.buid :: visited)).2.2) := by
            simp [procCands, h1, h2f, h3f]
          rw [heq]
          refine ⟨fun b hb => iha b (List.mem_cons_of_mem _ hb), fun y hy => ?_, ?_, ?_⟩
          · rcases List.mem_cons.mp hy with hy0 | hyr
            · subst hy0
              exact ⟨iha c.buid (List.mem_cons_self _ _), h1, rfl, h2f⟩
            · obtain ⟨hy1, hy2, hy3, hy4⟩ := ihb y hyr
              exact ⟨hy1, fun hm => hy2 (List.mem_cons_of_mem _ hm), hy3, hy4⟩
          · exact List.nodup_cons.mpr ⟨hnotin, ihc⟩
          · intro q hq
            rcases List.mem_cons.mp hq with hq0 | hqr
            · rw [hq0]
              exact ⟨h2f, h3f, (c, depth), List.mem_cons_self _ _, rfl⟩
            · obtain ⟨hqo, hqt, y, hy, hyq⟩ := ihd q hqr
              exact ⟨hqo, hqt, y, List.mem_cons_of_mem _ hy, hyq⟩

/-- The same invariant lifted over one whole round of the queue. -/
theorem procQueue_inv (opts : RefsOpts) (refs : SNode → List SNode) (depth : Nat) :
    ∀ (qs : List SNode) (visited : List Nat),
      (∀ b ∈ visited, b ∈ (procQueue opts refs depth qs visited).2.1) ∧
      (∀ y ∈ (procQueue opts refs depth qs visited).1,
        y.1.buid ∈ (procQueue opts refs depth qs visited).2.1 ∧
          y.1.buid ∉ visited ∧ y.2 = depth ∧ omitted opts y.1 = false) ∧
      (buids (procQueue opts refs depth qs visited).1).Nodup ∧
      (∀ q ∈ (procQueue opts refs depth qs visited).2.2,
        omitted opts q = false ∧ traversalOmitted opts q = false ∧
          ∃ y ∈ (procQueue opts refs depth qs visited).1, y.1 = q) := by
  intro qs
  induction qs with
  | nil =>
    intro visited
    simp [procQueue]
  | cons s ss ih =>
    intro visited
    obtain ⟨pca, pcb, pcc, pcd⟩ := procCands_inv opts depth (refs s) visited
    obtain ⟨iha, ihb, ihc, ihd⟩ := ih (procCands opts depth (refs s) visited).2.1
    have heq : procQueue opts refs depth (s :: ss) visited
        = ((procCands opts depth (refs s) visited).1
             ++ (procQueue opts refs depth ss (procCands opts depth (refs s) visited).2.1).1,
           (procQueue opts refs depth ss (procCands opts depth (refs s) visited).2.1).2.1,
           (procCands opts depth (refs s) visited).2.2
             ++ (procQueue opts refs depth ss (procCands opts depth (refs s) visited).2.1).2.2) := rfl
    rw [heq]
    refine ⟨fun b hb => iha b (pca b hb), fun y hy => ?_, ?_, fun q hq => ?_⟩
    · rcases List.mem_append.mp hy with hyl | hyr
      · obtain ⟨hy1, hy2, hy3, hy4⟩ := pcb y hyl
        exact ⟨iha _ hy1, hy2, hy3, hy4⟩
      · obtain ⟨hy1, hy2, hy3, hy4⟩ := ihb y hyr
        exact ⟨hy1, fun hm => hy2 (pca _ hm), hy3, hy4⟩
    · rw [buids_append, List.nodup_append]
      refine ⟨pcc, ihc, fun b hbl hbr => ?_⟩
      obtain ⟨y, hy, hyb⟩ := mem_buids.mp hbl
      obtain ⟨z, hz, hzb⟩ := mem_buids.mp hbr
      exact (ihb z hz).2.1 (by rw [hzb, ← hyb]; exact (pcb y hy).1)
    · rcases List.mem_append.mp hq with hql | hqr
      · obtain ⟨hqo, hqt, y, hy, hyq⟩ := pcd q hql
        exact ⟨hqo, hqt, y, List.mem_append.mpr (Or.inl hy), hyq⟩
      · obtain ⟨hqo, hqt, y, hy, hyq⟩ := ihd q hqr
        exact ⟨hqo, hqt, y, List.mem_append.mpr (Or.inr hy), hyq⟩

/-- Invariant of the round loop: the visited set grows; every yield was
unvisited, is finally visited, is not omitted, and its hop count lies in
(depth, depth + remaining rounds]; yields never repeat a buid. -/
theorem doRefsLoop_inv (opts : RefsOpts) (refs : SNode → List SNode) :
    ∀ (d depth : Nat) (queue : List SNode) (visited : List Nat),
      (∀ b ∈ visited, b ∈ (doRefsLoop opts refs d depth queue visited).2) ∧
      (∀ y ∈ (doRefsLoop opts refs d depth queue visited).1,
        y.1.buid ∈ (doRefsLoop opts refs d depth queue visited).2 ∧
          y.1.buid ∉ visited ∧ depth + 1 ≤ y.2 ∧ y.2 ≤ depth + d ∧
          omitted opts y.1 = false) ∧
      (buids (doRefsLoop opts refs d depth queue visited).1).Nodup := by
  intro d
  induction d with
  | zero =>
    intro depth queue visited
    simp [doRefsLoop]
  | succ d ih =>
    intro depth queue visited
    obtain ⟨pqa, pqb, pqc, pqd⟩ :=
      procQueue_inv opts refs (depth + 1) queue.reverse visited
    obtain ⟨iha, ihb, ihc⟩ := ih (depth + 1)
      (procQueue opts refs (depth + 1) queue.reverse visited).2.2
      (procQueue opts refs (depth + 1) queue.reverse visited).2.1
    have heq : doRefsLoop opts refs (d + 1) depth queue visited
        = ((procQueue opts refs (depth + 1) queue.reverse visited).1
             ++ (doRefsLoop opts refs d (depth + 1)
                   (procQueue opts refs (depth + 1) queue.reverse visited).2.2
                   (procQueue opts refs (depth + 1) queue.reverse visited).2.1).1,
           (doRefsLoop opts refs d (depth + 1)
              (procQueue opts refs (depth + 1) queue.reverse visited).2.2
              (procQueue opts refs (depth + 1) queue.reverse visited).2.1).2) := rfl
    rw [heq]
    refine ⟨fun b hb => iha b (pqa b hb), fun y hy => ?_, ?_⟩
    · rcases List.mem_append.mp hy with hyl | hyr
      · obtain ⟨hy1, hy2, hy3, hy4⟩ := pqb y hyl
        exact ⟨iha _ hy1, hy2, by omega, by omega, hy4⟩
      · obtain ⟨hy1, hy2, hy3, hy4, hy5⟩ := ihb y hyr
        exact ⟨hy1, fun hm => hy2 (pqa _ hm), by omega, by omega, hy5⟩
    · rw [buids_append, List.nodup_append]
      refine ⟨pqc, ihc, fun b hbl hbr => ?_⟩
      obtain ⟨y, hy, hyb⟩ := mem_buids.mp hbl
      obtain ⟨z, hz, hzb⟩ := mem_buids.mp hbr
      exact (ihb z hz).2.1 (by rw [hzb, ← hyb]; exact (pqb y hy).1)

/-- Every node traversed through by the round loop is either in the initial
queue or a non-omitted, non-traversal-omitted yield of the loop. -/
theorem doRefsLoopTrace_inv (opts : RefsOpts) (refs : SNode → List SNode) :
    ∀ (d depth : Nat) (queue : List SNode) (visited : List Nat),
      ∀ n ∈ doRefsLoopTrace opts refs d depth queue visited,
        n ∈ queue ∨
          (omitted opts n = false ∧ traversalOmitted opts n = false ∧
            ∃ y ∈ (doRefsLoop opts refs d depth queue visited).1, y.1 = n) := by
  intro d
  induction d with
  | zero =>
    intro depth queue visited n hn
    simp [doRefsLoopTrace] at hn
  | succ d ih =>
    intro depth queue visited n hn
    obtain ⟨pqa, pqb, pqc, pqd⟩ :=
      procQueue_inv opts refs (depth + 1) queue.reverse visited
    have heq : doRefsLoopTrace opts refs (d + 1) depth queue visited
        = queue.reverse ++ doRefsLoopTrace opts refs d (depth + 1)
            (procQueue opts refs (depth + 1) queue.reverse visited).2.2
            (procQueue opts refs (depth + 1) queue.reverse visited).2.1 := rfl
    have hyields : doRefsLoop opts refs (d + 1) depth queue visited
        = ((procQueue opts refs (depth + 1) queue.reverse visited).1
             ++ (doRefsLoop opts refs d (depth + 1)
                   (procQueue opts refs (depth + 1) queue.reverse visited).2.2
                   (procQueue opts refs (depth + 1) queue.reverse visited).2.1).1,
           (doRefsLoop opts refs d (depth + 1)
              (procQueue opts refs (depth + 1) queue.reverse visited).2.2
              (procQueue opts refs (depth + 1) queue.reverse visited).2.1).2) := rfl
    rw [heq] at hn
    rcases List.mem_append.mp hn with hq | htr
    · exact Or.inl (List.mem_reverse.mp hq)
    · rcases ih (depth + 1)
        (procQueue opts refs (depth + 1) queue.reverse visited).2.2
        (procQueue opts refs (depth + 1) queue.reverse visited).2.1 n htr with hq2 | hrest
      · obtain ⟨hno, hnt, y, hy, hyn⟩ := pqd n hq2
        exact Or.inr ⟨hno, hnt, y, by rw [hyields]; exact List.mem_append.mpr (Or.inl hy), hyn⟩
      · obtain ⟨hno, hnt, y, hy, hyn⟩ := hrest
        exact Or.inr ⟨hno, hnt, y, by rw [hyields]; exact List.mem_append.mpr (Or.inr hy), hyn⟩

/-- One source traversal: yields are fresh, finally visited, non-omitted,
with hop counts in [1, degrees]; no buid repeats; the initial visited set
survives into the final one. -/
theorem doRefs_facts (opts : RefsOpts) (refs : SNode → List SNode) (s : SNode)
    (v1 : List Nat) :
    (∀ y ∈ (doRefs opts refs s v1).1,
      y.1.buid ∈ (doRefs opts refs s v1).2 ∧ y.1.buid ∉ v1 ∧
        1 ≤ y.2 ∧ y.2 ≤ opts.degrees.toNat ∧ omitted opts y.1 = false) ∧
    (buids (doRefs opts refs s v1).1).Nodup ∧
    (∀ b ∈ v1, b ∈ (doRefs opts refs s v1).2) := by
  obtain ⟨a, b, c⟩ := doRefsLoop_inv opts refs opts.degrees.toNat 0 [s] v1
  refine ⟨fun y hy => ?_, c, a⟩
  obtain ⟨h1, h2, h3, h4, h5⟩ := b y hy
  exact ⟨h1, h2, h3, by omega, h5⟩

/-- Dropping the hop-0 `join` emission of a segment leaves exactly the
traversal yields. -/
theorem travBuids_eq_buids (jn : Bool) (s : SNode) (ys : List (SNode × Nat))
    (h : ∀ y ∈ ys, 1 ≤ y.2) :
    travBuids ((if jn then [(s, 0)] else []) ++ ys) = buids ys := by
  have hfil : ys.filter (fun y => y.2 != 0) = ys := by
    refine List.filter_eq_self.mpr fun y hy => ?_
    have h1 := h y hy
    simp only [bne_iff_ne, ne_eq]
    omega
  cases jn <;> simp [travBuids, buids, hfil]

/-- Per-segment facts that hold for every `unique` setting: hop counts never
exceed `degrees`, and within one segment no traversal buid repeats. -/
theorem noderefsSegs_hop_nodup (opts : RefsOpts) (refs : SNode → List SNode) :
    ∀ (sources : List SNode) (visited : List Nat),
      ∀ seg ∈ noderefsSegs opts refs sources visited,
        (∀ y ∈ seg, y.2 ≤ opts.degrees.toNat) ∧ (travBuids seg).Nodup := by
  intro sources
  induction sources with
  | nil => intro visited seg hseg; simp [noderefsSegs] at hseg
  | cons s ss ih =>
    intro visited seg hseg
    have heq : noderefsSegs opts refs (s :: ss) visited
        = ((if opts.join then [(s, 0)] else [])
             ++ (doRefs opts refs s (s.buid :: (if opts.unique then visited else []))).1)
          :: noderefsSegs opts refs ss
               (doRefs opts refs s (s.buid :: (if opts.unique then visited else []))).2 := rfl
    obtain ⟨dfa, dfb, dfc⟩ :=
      doRefs_facts opts refs s (s.buid :: (if opts.unique then visited else []))
    rw [heq] at hseg
    rcases List.mem_cons.mp hseg with h0 | hmem
    · subst h0
      constructor
      · intro y hy
        rcases List.mem_append.mp hy with hjl | hyr
        · have hy0 : y.2 = 0 := by
            cases hj : opts.join with
            | true => rw [hj] at hjl; simp at hjl; rw [hjl]
            | false => rw [hj] at hjl; simp at hjl
          omega
        · exact (dfa y hyr).2.2.2.1
      · rw [travBuids_eq_buids opts.join s _ (fun y hy => (dfa y hy).2.2.1)]
        exact dfb
    · exact ih _ seg hmem

/-- With `unique=true` the visited set is threaded through all sources, so
no traversal buid repeats across the whole output, and every traversal buid
was absent from the incoming visited set. -/
theorem noderefsSegs_unique_nodup (opts : RefsOpts) (refs : SNode → List SNode)
    (hu : opts.unique = true) :
    ∀ (sources : List SNode) (visited : List Nat),
      (((noderefsSegs opts refs sources visited).map travBuids).flatten).Nodup ∧
      ∀ b ∈ ((noderefsSegs opts refs sources visited).map travBuids).flatten,
        b ∉ visited := by
  intro sources
  induction sources with
  | nil => intro visited; simp [noderefsSegs]
  | cons s ss ih =>
    intro visited
    have heq : noderefsSegs opts refs (s :: ss) visited
        = ((if opts.join then [(s, 0)] else [])
             ++ (doRefs opts refs s (s.buid :: visited)).1)
          :: noderefsSegs opts refs ss (doRefs opts refs s (s.buid :: visited)).2 := by
      simp [noderefsSegs, hu]
    obtain ⟨dfa, dfb, dfc⟩ := doRefs_facts opts refs s (s.buid :: visited)
    obtain ⟨ihn, ihv⟩ := ih (doRefs opts refs s (s.buid :: visited)).2
    have htv : travBuids ((if opts.join then [(s, 0)] else [])
        ++ (doRefs opts refs s (s.buid :: visited)).1)
        = buids (doRefs opts refs s (s.buid :: visited)).1 :=
      travBuids_eq_buids opts.join s _ (fun y hy => (dfa y hy).2.2.1)
    rw [heq]
    simp only [List.map_cons, List.flatten_cons, htv]
    constructor
    · rw [List.nodup_append]
      refine ⟨dfb, ihn, fun b hbl hbr => ?_⟩
      obtain ⟨y, hy, hyb⟩ := mem_buids.mp hbl
      exact ihv b hbr (by rw [← hyb]; exact (dfa y hy).1)
    · intro b hb hbv
      rcases List.mem_append.mp hb with hbl | hbr
      · obtain ⟨y, hy, hyb⟩ := mem_buids.mp hbl
        exact (dfa y hy).2.1 (by rw [hyb]; exact List.mem_cons_of_mem _ hbv)
      · exact ihv b hbr (dfc b (List.mem_cons_of_mem _ hbv))

/-- C1: in every successful noderefs run, no buid is yielded twice within
one traversal scope — across the whole output when `unique=true` (shared
visited set), within each source segment when `unique=false` (per-source
visited set) — and every yielded node lies within `degrees` hops of its
source (the `join` copy of the source itself is at hop 0). -/
theorem noderefs_no_revisit_hopbound (opts : RefsOpts) (refs : SNode → List SNode)
    (sources : List SNode) (segs : List (List (SNode × Nat)))
    (hrun : noderefsRun opts refs sources = Except.ok segs) :
    (∀ seg ∈ segs, ∀ y ∈ seg, y.2 ≤ opts.degrees.toNat) ∧
    (opts.unique = true → ((segs.map travBuids).flatten).Nodup) ∧
    (opts.unique = false → ∀ seg ∈ segs, (travBuids seg).Nodup) := by
  have hsegs : noderefsSegs opts refs sources [] = segs := by
    by_cases hd : opts.degrees < 1
    · simp [noderefsRun, hd] at hrun
    · simpa [noderefsRun, hd] using hrun
  rw [← hsegs]
  refine ⟨fun seg hseg => (noderefsSegs_hop_nodup opts refs sources [] seg hseg).1,
    fun hu => (noderefsSegs_unique_nodup opts refs hu sources []).1,
    fun hu seg hseg => (noderefsSegs_hop_nodup opts refs sources [] seg hseg).2⟩

/-- Witness for C1: a 1-degree unique traversal from one source. -/
theorem noderefs_no_revisit_hopbound_witness :
    noderefsRun ⟨1, false, [], [], [], [], true⟩
        (fun n => if n.buid = 1 then [⟨2, "inet:dns:a", []⟩] else [⟨1, "inet:ipv4", []⟩])
        [⟨1, "inet:ipv4", []⟩]
      = Except.ok [[(⟨2, "inet:dns:a", []⟩, 1)]] ∧
    ((([[((⟨2, "inet:dns:a", []⟩ : SNode), 1)]]).map travBuids).flatten).Nodup := by
  have hrun : noderefsRun ⟨1, false, [], [], [], [], true⟩
      (fun n => if n.buid = 1 then [⟨2, "inet:dns:a", []⟩] else [⟨1, "inet:ipv4", []⟩])
      [⟨1, "inet:ipv4", []⟩]
      = Except.ok [[(⟨2, "inet:dns:a", []⟩, 1)]] := rfl
  exact ⟨hrun, (noderefs_no_revisit_hopbound _ _ _ _ hrun).2.1 rfl⟩

/-- C7: omitted nodes (form in omit-form or a tag in omit-tag) are never
yielded by the traversal and — besides the source itself, which is always
traversed in round 1 — never traversed through; traversal-omitted nodes can
only be traversed if they are the source, so a non-source candidate
matching omit-traversal contributes no neighbors to later rounds; and since
no buid is yielded twice, a traversal-omitted node that is yielded is
yielded exactly once. -/
theorem noderefs_omit_semantics (opts : RefsOpts) (refs : SNode → List SNode)
    (srcnode : SNode) (visited : List Nat) :
    (∀ y ∈ (doRefs opts refs srcnode visited).1, omitted opts y.1 = false) ∧
    (∀ n ∈ doRefsTrace opts refs srcnode visited,
      n = srcnode ∨
        (omitted opts n = false ∧ traversalOmitted opts n = false ∧
          ∃ y ∈ (doRefs opts refs srcnode visited).1, y.1 = n)) ∧
    (buids (doRefs opts refs srcnode visited).1).Nodup := by
  obtain ⟨a, b, c⟩ := doRefsLoop_inv opts refs opts.degrees.toNat 0 [srcnode] visited
  refine ⟨fun y hy => (b y hy).2.2.2.2, fun n hn => ?_, c⟩
  rcases doRefsLoopTrace_inv opts refs opts.degrees.toNat 0 [srcnode] visited n hn
    with hq | hr
  · exact Or.inl (List.mem_singleton.mp hq)
  · exact Or.inr hr

/-- Witness for C7: a 2-degree traversal where form "bad" is omitted and
form "stop" is traversal-omitted. -/
theorem noderefs_omit_semantics_witness :
    (doRefs ⟨2, false, ["stop"], [], ["bad"], [], false⟩
        (fun n => if n.buid = 1 then [⟨2, "bad", []⟩, ⟨3, "stop", []⟩]
                  else if n.buid = 3 then [⟨4, "c", []⟩] else [])
        ⟨1, "a", []⟩ [1]).1 = [(⟨3, "stop", []⟩, 1)] ∧
    omitted ⟨2, false, ["stop"], [], ["bad"], [], false⟩ ⟨3, "stop", []⟩ = false ∧
    (buids (doRefs ⟨2, false, ["stop"], [], ["bad"], [], false⟩
        (fun n => if n.buid = 1 then [⟨2, "bad", []⟩, ⟨3, "stop", []⟩]
                  else if n.buid = 3 then [⟨4, "c", []⟩] else [])
        ⟨1, "a", []⟩ [1]).1).Nodup := by
  have h := noderefs_omit_semantics ⟨2, false, ["stop"], [], ["bad"], [], false⟩
    (fun n => if n.buid = 1 then [⟨2, "bad", []⟩, ⟨3, "stop", []⟩]
              else if n.buid = 3 then [⟨4, "c", []⟩] else [])
    ⟨1, "a", []⟩ [1]
  have hys : (doRefs ⟨2, false, ["stop"], [], ["bad"], [], false⟩
      (fun n => if n.buid = 1 then [⟨2, "bad", []⟩, ⟨3, "stop", []⟩]
                else if n.buid = 3 then [⟨4, "c", []⟩] else [])
      ⟨1, "a", []⟩ [1]).1 = [(⟨3, "stop", []⟩, 1)] := rfl
  refine ⟨hys, ?_, h.2.2⟩
  exact h.1 (⟨3, "stop", []⟩, 1) (by rw [hys]; exact List.mem_singleton.mpr rfl)

/-- C8: the noderefs command fails with `BadOperArg` exactly when the
`degrees` argument is strictly less than 1, and otherwise runs the
traversal without that error. -/
theorem noderefs_degrees_validation (opts : RefsOpts) (refs : SNode → List SNode)
    (sources : List SNode) :
    (opts.degrees < 1 →
      noderefsRun opts refs sources
        = Except.error "BadOperArg: degrees must be greater than or equal to 1") ∧
    (1 ≤ opts.degrees →
      noderefsRun opts refs sources = Except.ok (noderefsSegs opts refs sources [])) := by
  constructor
  · intro hd
    simp [noderefsRun, hd]
  · intro hd
    have hnd : ¬ opts.degrees < 1 := by omega
    simp [noderefsRun, hnd]

/-- Witness for C8: degrees 0 is rejected, degrees 1 is accepted. -/
theorem noderefs_degrees_validation_witness :
    noderefsRun ⟨0, false, [], [], [], [], false⟩ (fun _ => []) []
      = Except.error "BadOperArg: degrees must be greater than or equal to 1" ∧
    noderefsRun ⟨1, false, [], [], [], [], false⟩ (fun _ => []) []
      = Except.ok [] := by
  refine ⟨(noderefs_degrees_validation ⟨0, false, [], [], [], [], false⟩ (fun _ => []) []).1
      (by decide), ?_⟩
  exact (noderefs_degrees_validation ⟨1, false, [], [], [], [], false⟩ (fun _ => []) []).2
    (by decide)

/-! ### Theorems: `limit` -/

/-- Closed form of `limitGo`: yields and upstream pulls. -/
theorem limitGo_eq (n : Int) (hn : 0 ≤ n) :
    ∀ (xs : List α) (c : Nat),
      limitGo n c xs = (xs.take (n.toNat - c), min (n.toNat - c + 1) xs.length)
  | [], c => by simp [limitGo]
  | x :: xs, c => by
    by_cases h : (c : Int) ≥ n
    · have hc : n.toNat ≤ c := by omega
      simp [limitGo, h, Nat.sub_eq_zero_of_le hc]
    · have hc : c < n.toNat := by omega
      have ih := limitGo_eq n hn xs (c + 1)
      simp only [limitGo, if_neg h, ih]
      have hk : n.toNat - c = (n.toNat - (c + 1)) + 1 := by omega
      refine Prod.ext ?_ ?_
      · simp [hk, List.take_succ_cons]
      · simp only [List.length_cons]
        omega

/-- C2 counterexample: `Limit(2)` over a 5-element upstream does yield
exactly 2 elements, but its draining loop pulls a 3rd element from upstream
before it detects that the limit was reached, contradicting the claim that
no 3rd element is ever pulled. -/
theorem limitcmd_overfetch_cex :
    (limitRun 2 [10, 20, 30, 40, 50]).1 = [10, 20] ∧
    ¬ (limitRun 2 [10, 20, 30, 40, 50]).2 ≤ 2 ∧
    (limitRun 2 [10, 20, 30, 40, 50]).2 = 3 := by decide

/-- C2 amended: for every n ≥ 0, `Limit(n)` yields exactly the first
`min n (length)` elements (so at most n), and pulls `min (n+1) (length)`
elements from upstream — at most one more than it forwards: the (n+1)-th
upstream element is pulled (only to detect the limit) and discarded. -/
theorem limitcmd_yields_and_pulls (n : Int) (hn : 0 ≤ n) (genr : List α) :
    (limitRun n genr).1 = genr.take n.toNat ∧
    (limitRun n genr).2 = min (n.toNat + 1) genr.length ∧
    (limitRun n genr).1.length ≤ n.toNat ∧
    (limitRun n genr).2 ≤ n.toNat + 1 := by
  have h := limitGo_eq n hn genr 0
  rw [limitRun, h]
  refine ⟨rfl, by simp, ?_, ?_⟩
  · simp [List.length_take]
  · simp

/-- Witness for C2 amended at n = 2 over a 5-element upstream. -/
theorem limitcmd_yields_and_pulls_witness :
    (0 : Int) ≤ 2 ∧
    (limitRun 2 [10, 20, 30, 40, 50]).1 = [10, 20] ∧
    (limitRun 2 [10, 20, 30, 40, 50]).2 = 3 := by
  have h := limitcmd_yields_and_pulls 2 (by decide) [10, 20, 30, 40, 50]
  exact ⟨by decide, by rw [h.1]; decide, by rw [h.2.1]; decide⟩

/-! ### Theorems: `count` -/

/-- C10: the `count` command over an empty upstream yields no elements and
prints "Counted 0 nodes." — it does not fail and does not report 1. -/
theorem countcmd_empty_stream (α : Type) :
    countRun ([] : List α) = ([], "Counted 0 nodes.") := by
  have h : ("Counted " ++ toString 0 ++ " nodes.") = "Counted 0 nodes." := by decide
  exact Prod.ext rfl h

/-! ### movetag: string-level lemmas -/

theorem strStarts_iff {p s : String} : strStarts p s = true ↔ p.data <+: s.data := by
  simp [strStarts, List.isPrefixOf_iff_prefix]

theorem strStarts_refl (s : String) : strStarts s s = true :=
  strStarts_iff.mpr (List.prefix_refl _)

theorem strData_inj {s t : String} (h : s.data = t.data) : s = t := by
  cases s; cases t; exact congrArg String.mk h

theorem renameTag_data (o n t : String) :
    (renameTag o n t).data = n.data ++ t.data.drop o.length := rfl

theorem renameTag_old (o n : String) : renameTag o n o = n := by
  apply strData_inj
  rw [renameTag_data]
  have : o.length = o.data.length := rfl
  rw [this, List.drop_length, List.append_nil]

theorem strStarts_data_eq {p s : String} (h : strStarts p s = true) :
    s.data = p.data ++ s.data.drop p.length := by
  obtain ⟨r, hr⟩ := strStarts_iff.mp h
  have hl : p.length = p.data.length := rfl
  rw [← hr, hl, List.drop_left]

theorem renameTag_inj {o n t1 t2 : String} (h1 : strStarts o t1 = true)
    (h2 : strStarts o t2 = true) (h : renameTag o n t1 = renameTag o n t2) :
    t1 = t2 := by
  have e : t1.data.drop o.length = t2.data.drop o.length := by
    have hd := congrArg String.data h
    rw [renameTag_data, renameTag_data] at hd
    exact List.append_cancel_left hd
  apply strData_inj
  rw [strStarts_data_eq h1, strStarts_data_eq h2, e]

theorem strStarts_rename_false {o n : String} (hsep : PreFree o n) (t : String) :
    strStarts o (renameTag o n t) = false := by
  by_contra hc
  have hc2 : strStarts o (renameTag o n t) = true := by
    cases hx : strStarts o (renameTag o n t) with
    | false => exact absurd hx hc
    | true => rfl
  have hp : o.data <+: n.data ++ t.data.drop o.length := by
    have := strStarts_iff.mp hc2
    rwa [renameTag_data] at this
  rcases List.prefix_or_prefix_of_prefix hp (List.prefix_append _ _) with h | h
  · have := strStarts_iff.mpr h
    rw [hsep.1] at this
    cases this
  · have := strStarts_iff.mpr h
    rw [hsep.2] at this
    cases this

theorem rename_ne_of_starts {o n t : String} (hsep : PreFree o n)
    (ht : strStarts o t = true) : renameTag o n t ≠ t := by
  intro he
  have := strStarts_rename_false hsep t
  rw [he, ht] at this
  cases this

/-! ### movetag: tag-definition accessor lemmas -/

theorem getTagDef_name {defs : List TagDef} {x : String} {d : TagDef}
    (h : getTagDef defs x = some d) : d.name = x := by
  have := List.find?_some h
  simpa using this

theorem getTagDef_mem {defs : List TagDef} {x : String} {d : TagDef}
    (h : getTagDef defs x = some d) : d ∈ defs :=
  List.mem_of_find?_eq_some h

theorem getTagDef_isSome_iff {defs : List TagDef} {x : String} :
    getTagDef defs x ≠ none ↔ x ∈ namesOf defs := by
  constructor
  · intro h
    cases hg : getTagDef defs x with
    | none => exact absurd hg h
    | some d => exact List.mem_map.mpr ⟨d, getTagDef_mem hg, getTagDef_name hg⟩
  · intro h hnone
    obtain ⟨d, hd, hdn⟩ := List.mem_map.mp h
    have := List.find?_eq_none.mp hnone d hd
    simp [hdn] at this

theorem getTagDef_of_mem_nodup {defs : List TagDef} {d : TagDef}
    (hnd : (namesOf defs).Nodup) (hd : d ∈ defs) :
    getTagDef defs d.name = some d := by
  induction defs with
  | nil => simp at hd
  | cons e es ih =>
    rcases List.mem_cons.mp hd with h0 | hmem
    · subst h0
      simp [getTagDef]
    · have hne : e.name ≠ d.name := by
        intro he
        have : d.name ∈ namesOf es := List.mem_map.mpr ⟨d, hmem, rfl⟩
        rw [namesOf, List.map_cons] at hnd
        exact (List.nodup_cons.mp hnd).1 (he ▸ this)
      have hnd2 : (namesOf es).Nodup := by
        rw [namesOf, List.map_cons] at hnd
        exact (List.nodup_cons.mp hnd).2
      rw [getTagDef, List.find?_cons]
      rw [show (e.name == d.name) = false from beq_eq_false_iff_ne.mpr hne]
      exact ih hnd2 hmem

theorem getTagDef_updateDef (defs : List TagDef) (nm : String) (g : TagDef → TagDef)
    (hg : ∀ d, (g d).name = d.name) (x : String) :
    getTagDef (updateDef defs nm g) x
      = (getTagDef defs x).map (fun d => if d.name = nm then g d else d) := by
  unfold getTagDef updateDef
  rw [List.find?_map]
  have hpred : ((fun d => d.name == x) ∘ fun d => if d.name = nm then g d else d)
      = (fun d : TagDef => d.name == x) := by
    funext d
    by_cases h : d.name = nm <;> simp [h, hg]
  rw [hpred]

theorem getTagDef_updateDef_ne {defs : List TagDef} {nm x : String}
    {g : TagDef → TagDef} (hg : ∀ d, (g d).name = d.name) (h : x ≠ nm) :
    getTagDef (updateDef defs nm g) x = getTagDef defs x := by
  rw [getTagDef_updateDef defs nm g hg x]
  cases hgt : getTagDef defs x with
  | none => rfl
  | some d => simp [getTagDef_name hgt, h]

theorem getTagDef_updateDef_self {defs : List TagDef} {nm : String}
    {g : TagDef → TagDef} (hg : ∀ d, (g d).name = d.name) :
    getTagDef (updateDef defs nm g) nm = (getTagDef defs nm).map g := by
  rw [getTagDef_updateDef defs nm g hg nm]
  cases hgt : getTagDef defs nm with
  | none => rfl
  | some d => simp [getTagDef_name hgt]

theorem any_name_iff {defs : List TagDef} {nm : String} :
    (defs.any (fun d => d.name == nm) = true) ↔ nm ∈ namesOf defs := by
  rw [List.any_eq_true]
  constructor
  · rintro ⟨d, hd, he⟩
    exact List.mem_map.mpr ⟨d, hd, by simpa using he⟩
  · intro h
    obtain ⟨d, hd, hdn⟩ := List.mem_map.mp h
    exact ⟨d, hd, by simp [hdn]⟩

theorem addTagDef_of_present {defs : List TagDef} {nm : String}
    (h : nm ∈ namesOf defs) : addTagDef defs nm = defs := by
  unfold addTagDef
  rw [if_pos (any_name_iff.mpr h)]

theorem addTagDef_of_absent {defs : List TagDef} {nm : String}
    (h : nm ∉ namesOf defs) :
    addTagDef defs nm = defs ++ [⟨nm, none, none, none⟩] := by
  unfold addTagDef
  rw [if_neg (fun hc => h (any_name_iff.mp hc))]

theorem namesOf_append (a b : List TagDef) :
    namesOf (a ++ b) = namesOf a ++ namesOf b := by
  simp [namesOf]

theorem namesOf_addTagDef (defs : List TagDef) (nm : String) :
    namesOf (addTagDef defs nm)
      = if nm ∈ namesOf defs then namesOf defs else namesOf defs ++ [nm] := by
  by_cases h : nm ∈ namesOf defs
  · rw [addTagDef_of_present h, if_pos h]
  · rw [addTagDef_of_absent h, if_neg h, namesOf_append]
    rfl

theorem nodup_namesOf_addTagDef {defs : List TagDef} (nm : String)
    (h : (namesOf defs).Nodup) : (namesOf (addTagDef defs nm)).Nodup := by
  rw [namesOf_addTagDef]
  by_cases hm : nm ∈ namesOf defs
  · rwa [if_pos hm]
  · rw [if_neg hm]
    rw [List.nodup_append]
    exact ⟨h, List.nodup_singleton _, fun a ha hb => hm (by
      rw [List.mem_singleton] at hb
      rwa [← hb])⟩

theorem mem_namesOf_addTagDef (defs : List TagDef) (nm : String) :
    nm ∈ namesOf (addTagDef defs nm) := by
  rw [namesOf_addTagDef]
  by_cases h : nm ∈ namesOf defs
  · rwa [if_pos h]
  · rw [if_neg h]
    simp

theorem namesOf_addTagDef_sub {defs : List TagDef} {x : String} (nm : String)
    (h : x ∈ namesOf defs) : x ∈ namesOf (addTagDef defs nm) := by
  rw [namesOf_addTagDef]
  by_cases hm : nm ∈ namesOf defs
  · rwa [if_pos hm]
  · rw [if_neg hm]
    exact List.mem_append.mpr (Or.inl h)

theorem getTagDef_addTagDef_ne {defs : List TagDef} {nm x : String} (h : x ≠ nm) :
    getTagDef (addTagDef defs nm) x = getTagDef defs x := by
  by_cases hp : nm ∈ namesOf defs
  · rw [addTagDef_of_present hp]
  · rw [addTagDef_of_absent hp]
    unfold getTagDef
    rw [List.find?_append]
    cases hf : defs.find? (fun d => d.name == x) with
    | some d => rfl
    | none => simp [h, Ne.symm h]

theorem getTagDef_addTagDef_present {defs : List TagDef} {nm x : String}
    (h : getTagDef defs x ≠ none) :
    getTagDef (addTagDef defs nm) x = getTagDef defs x := by
  by_cases hp : nm ∈ namesOf defs
  · rw [addTagDef_of_present hp]
  · rw [addTagDef_of_absent hp]
    unfold getTagDef
    rw [List.find?_append]
    cases hf : defs.find? (fun d => d.name == x) with
    | some d => rfl
    | none => exact absurd hf h

theorem getTagDef_eq_none_of_not_mem {defs : List TagDef} {x : String}
    (hp : x ∉ namesOf defs) : getTagDef defs x = none := by
  cases hg : getTagDef defs x with
  | none => rfl
  | some d =>
    have hne : getTagDef defs x ≠ none := by
      rw [hg]
      exact fun hc => Option.noConfusion hc
    exact absurd (getTagDef_isSome_iff.mp hne) hp

theorem getTagDef_append_none {defs₁ defs₂ : List TagDef} {x : String}
    (h : getTagDef defs₁ x = none) :
    getTagDef (defs₁ ++ defs₂) x = getTagDef defs₂ x := by
  unfold getTagDef at h ⊢
  rw [List.find?_append, h]
  simp

theorem getTagDef_addTagDef_absent {defs : List TagDef} {x : String}
    (hp : x ∉ namesOf defs) :
    getTagDef (addTagDef defs x) x = some ⟨x, none, none, none⟩ := by
  rw [addTagDef_of_absent hp, getTagDef_append_none (getTagDef_eq_none_of_not_mem hp)]
  simp [getTagDef]

theorem isnowOf_addTagDef (defs : List TagDef) (nm x : String) :
    isnowOf (addTagDef defs nm) x = isnowOf defs x := by
  by_cases hx : x = nm
  · subst hx
    by_cases hp : x ∈ namesOf defs
    · rw [addTagDef_of_present hp]
    · unfold isnowOf
      rw [getTagDef_addTagDef_absent hp, getTagDef_eq_none_of_not_mem hp]
      rfl
  · unfold isnowOf
    rw [getTagDef_addTagDef_ne hx]

theorem docOf_addTagDef (defs : List TagDef) (nm x : String) :
    docOf (addTagDef defs nm) x = docOf defs x := by
  by_cases hx : x = nm
  · subst hx
    by_cases hp : x ∈ namesOf defs
    · rw [addTagDef_of_present hp]
    · unfold docOf
      rw [getTagDef_addTagDef_absent hp, getTagDef_eq_none_of_not_mem hp]
      rfl
  · unfold docOf
    rw [getTagDef_addTagDef_ne hx]

theorem titleOf_addTagDef (defs : List TagDef) (nm x : String) :
    titleOf (addTagDef defs nm) x = titleOf defs x := by
  by_cases hx : x = nm
  · subst hx
    by_cases hp : x ∈ namesOf defs
    · rw [addTagDef_of_present hp]
    · unfold titleOf
      rw [getTagDef_addTagDef_absent hp, getTagDef_eq_none_of_not_mem hp]
      rfl
  · unfold titleOf
    rw [getTagDef_addTagDef_ne hx]

theorem getTagDef_addTagDef_self (defs : List TagDef) (nm : String) :
    getTagDef (addTagDef defs nm) nm ≠ none :=
  getTagDef_isSome_iff.mpr (mem_namesOf_addTagDef defs nm)

/-! ### movetag: setter lemmas (each `node.set` touches one field of the
definitions with the given name and nothing else) -/

theorem getTagDef_setDoc_ne {defs : List TagDef} {nm x v : String} (h : x ≠ nm) :
    getTagDef (setDoc defs nm v) x = getTagDef defs x := by
  unfold setDoc
  exact getTagDef_updateDef_ne (fun d => rfl) h

theorem getTagDef_setTitle_ne {defs : List TagDef} {nm x v : String} (h : x ≠ nm) :
    getTagDef (setTitle defs nm v) x = getTagDef defs x := by
  unfold setTitle
  exact getTagDef_updateDef_ne (fun d => rfl) h

theorem getTagDef_setIsnow_ne {defs : List TagDef} {nm x v : String} (h : x ≠ nm) :
    getTagDef (setIsnow defs nm v) x = getTagDef defs x := by
  unfold setIsnow
  exact getTagDef_updateDef_ne (fun d => rfl) h

theorem isnowOf_setDoc (defs : List TagDef) (nm v x : String) :
    isnowOf (setDoc defs nm v) x = isnowOf defs x := by
  unfold isnowOf setDoc
  rw [getTagDef_updateDef defs nm (fun d => { d with doc := some v }) (fun d => rfl) x]
  cases getTagDef defs x with
  | none => rfl
  | some d => by_cases h : d.name = nm <;> simp [h]

theorem isnowOf_setTitle (defs : List TagDef) (nm v x : String) :
    isnowOf (setTitle defs nm v) x = isnowOf defs x := by
  unfold isnowOf setTitle
  rw [getTagDef_updateDef defs nm (fun d => { d with title := some v }) (fun d => rfl) x]
  cases getTagDef defs x with
  | none => rfl
  | some d => by_cases h : d.name = nm <;> simp [h]

theorem docOf_setIsnow (defs : List TagDef) (nm v x : String) :
    docOf (setIsnow defs nm v) x = docOf defs x := by
  unfold docOf setIsnow
  rw [getTagDef_updateDef defs nm (fun d => { d with isnow := some v }) (fun d => rfl) x]
  cases getTagDef defs x with
  | none => rfl
  | some d => by_cases h : d.name = nm <;> simp [h]

theorem docOf_setTitle (defs : List TagDef) (nm v x : String) :
    docOf (setTitle defs nm v) x = docOf defs x := by
  unfold docOf setTitle
  rw [getTagDef_updateDef defs nm (fun d => { d with title := some v }) (fun d => rfl) x]
  cases getTagDef defs x with
  | none => rfl
  | some d => by_cases h : d.name = nm <;> simp [h]

theorem titleOf_setDoc (defs : List TagDef) (nm v x : String) :
    titleOf (setDoc defs nm v) x = titleOf defs x := by
  unfold titleOf setDoc
  rw [getTagDef_updateDef defs nm (fun d => { d with doc := some v }) (fun d => rfl) x]
  cases getTagDef defs x with
  | none => rfl
  | some d => by_cases h : d.name = nm <;> simp [h]

theorem titleOf_setIsnow (defs : List TagDef) (nm v x : String) :
    titleOf (setIsnow defs nm v) x = titleOf defs x := by
  unfold titleOf setIsnow
  rw [getTagDef_updateDef defs nm (fun d => { d with isnow := some v }) (fun d => rfl) x]
  cases getTagDef defs x with
  | none => rfl
  | some d => by_cases h : d.name = nm <;> simp [h]

theorem isnowOf_setIsnow_self (defs : List TagDef) (nm v : String) :
    isnowOf (setIsnow defs nm v) nm = (getTagDef defs nm).map (fun _ => v) := by
  unfold isnowOf setIsnow
  rw [getTagDef_updateDef_self (g := fun d => { d with isnow := some v }) (fun d => rfl)]
  cases hg : getTagDef defs nm with
  | none => rfl
  | some d => simp [getTagDef_name hg]

theorem isnowOf_setIsnow_ne {defs : List TagDef} {nm x : String} (v : String)
    (h : x ≠ nm) : isnowOf (setIsnow defs nm v) x = isnowOf defs x := by
  unfold isnowOf
  rw [getTagDef_setIsnow_ne h]

theorem docOf_setDoc_self (defs : List TagDef) (nm v : String) :
    docOf (setDoc defs nm v) nm = (getTagDef defs nm).map (fun _ => v) := by
  unfold docOf setDoc
  rw [getTagDef_updateDef_self (g := fun d => { d with doc := some v }) (fun d => rfl)]
  cases hg : getTagDef defs nm with
  | none => rfl
  | some d => simp [getTagDef_name hg]

theorem docOf_setDoc_ne {defs : List TagDef} {nm x : String} (v : String)
    (h : x ≠ nm) : docOf (setDoc defs nm v) x = docOf defs x := by
  unfold docOf
  rw [getTagDef_setDoc_ne h]

theorem titleOf_setTitle_self (defs : List TagDef) (nm v : String) :
    titleOf (setTitle defs nm v) nm = (getTagDef defs nm).map (fun _ => v) := by
  unfold titleOf setTitle
  rw [getTagDef_updateDef_self (g := fun d => { d with title := some v }) (fun d => rfl)]
  cases hg : getTagDef defs nm with
  | none => rfl
  | some d => simp [getTagDef_name hg]

theorem titleOf_setTitle_ne {defs : List TagDef} {nm x : String} (v : String)
    (h : x ≠ nm) : titleOf (setTitle defs nm v) x = titleOf defs x := by
  unfold titleOf
  rw [getTagDef_setTitle_ne h]

theorem namesOf_updateDef (defs : List TagDef) (nm : String) (g : TagDef → TagDef)
    (hg : ∀ d, (g d).name = d.name) :
    namesOf (updateDef defs nm g) = namesOf defs := by
  unfold namesOf updateDef
  rw [List.map_map]
  apply List.map_congr_left
  intro d hd
  by_cases h : d.name = nm <;> simp [h, hg]

theorem namesOf_setDoc (defs : List TagDef) (nm v : String) :
    namesOf (setDoc defs nm v) = namesOf defs := by
  unfold setDoc
  exact namesOf_updateDef defs nm _ (fun d => rfl)

theorem namesOf_setTitle (defs : List TagDef) (nm v : String) :
    namesOf (setTitle defs nm v) = namesOf defs := by
  unfold setTitle
  exact namesOf_updateDef defs nm _ (fun d => rfl)

theorem namesOf_setIsnow (defs : List TagDef) (nm v : String) :
    namesOf (setIsnow defs nm v) = namesOf defs := by
  unfold setIsnow
  exact namesOf_updateDef defs nm _ (fun d => rfl)

/-! ### movetag: enumeration lemmas -/

theorem mem_tagNamesByPre {defs : List TagDef} {p t : String} :
    t ∈ tagNamesByPre defs p ↔ t ∈ namesOf defs ∧ strStarts p t = true := by
  unfold tagNamesByPre namesOf
  constructor
  · intro h
    obtain ⟨d, hd, rfl⟩ := List.mem_map.mp h
    have hm := List.mem_filter.mp hd
    exact ⟨List.mem_map.mpr ⟨d, hm.1, rfl⟩, hm.2⟩
  · rintro ⟨hm, hpre⟩
    obtain ⟨d, hd, rfl⟩ := List.mem_map.mp hm
    exact List.mem_map.mpr ⟨d, List.mem_filter.mpr ⟨hd, hpre⟩, rfl⟩

theorem tagNamesByPre_nodup {defs : List TagDef} (h : (namesOf defs).Nodup)
    (p : String) : (tagNamesByPre defs p).Nodup :=
  List.Nodup.sublist (List.Sublist.map _ (List.filter_sublist _)) h

theorem tagNamesByPre_updateDef (defs : List TagDef) (nm : String)
    (g : TagDef → TagDef) (p : String) (hg : ∀ d, (g d).name = d.name) :
    tagNamesByPre (updateDef defs nm g) p = tagNamesByPre defs p := by
  unfold tagNamesByPre updateDef
  induction defs with
  | nil => rfl
  | cons d ds ih =>
    rw [List.map_cons, List.filter_cons, List.filter_cons]
    by_cases h : d.name = nm
    · by_cases hs : strStarts p d.name = true <;> rw [h] at hs <;> simp [hg, h, hs, ih]
    · by_cases hs : strStarts p d.name = true <;> simp [hg, h, hs, ih]

theorem tagNamesByPre_setDoc (defs : List TagDef) (nm v p : String) :
    tagNamesByPre (setDoc defs nm v) p = tagNamesByPre defs p := by
  unfold setDoc
  exact tagNamesByPre_updateDef defs nm _ p (fun d => rfl)

theorem tagNamesByPre_setTitle (defs : List TagDef) (nm v p : String) :
    tagNamesByPre (setTitle defs nm v) p = tagNamesByPre defs p := by
  unfold setTitle
  exact tagNamesByPre_updateDef defs nm _ p (fun d => rfl)

theorem tagNamesByPre_setIsnow (defs : List TagDef) (nm v p : String) :
    tagNamesByPre (setIsnow defs nm v) p = tagNamesByPre defs p := by
  unfold setIsnow
  exact tagNamesByPre_updateDef defs nm _ p (fun d => rfl)

theorem tagNamesByPre_addTagDef {defs : List TagDef} {nm p : String}
    (h : strStarts p nm = false) :
    tagNamesByPre (addTagDef defs nm) p = tagNamesByPre defs p := by
  by_cases hp : nm ∈ namesOf defs
  · rw [addTagDef_of_present hp]
  · rw [addTagDef_of_absent hp]
    unfold tagNamesByPre
    rw [List.filter_append, List.map_append]
    have he : List.filter (fun d => strStarts p d.name)
        [(⟨nm, none, none, none⟩ : TagDef)] = [] := by
      simp [List.filter_cons, h]
    rw [he]
    simp


theorem step_isnowOf {o n : String} (hsep : PreFree o n) {t : String}
    (ht : strStarts o t = true) (s : List TagDef × List (String × String)) (x : String) :
    isnowOf (moveTagDefStep o n s t).1 x
      = if x = t then (getTagDef s.1 t).map (fun _ => renameTag o n t)
        else isnowOf s.1 x := by
  by_cases h : t = o
  · subst h
    rw [renameTag_old]
    have hst : (moveTagDefStep t n s t).1 = setIsnow s.1 t n := by
      simp [moveTagDefStep]
    rw [hst]
    by_cases hx : x = t
    · rw [if_pos hx, hx, isnowOf_setIsnow_self]
    · rw [if_neg hx, isnowOf_setIsnow_ne n hx]
  · have hne : t ≠ renameTag o n t := Ne.symm (rename_ne_of_starts hsep ht)
    simp only [moveTagDefStep, if_neg h]
    split
    · next v1 htitle =>
        split
        · next v2 hdoc =>
            by_cases hx : x = t
            · rw [if_pos hx, hx, isnowOf_setIsnow_self]
              rw [getTagDef_setTitle_ne hne, getTagDef_setDoc_ne hne,
                getTagDef_addTagDef_ne hne]
            · rw [if_neg hx, isnowOf_setIsnow_ne _ hx, isnowOf_setTitle,
                isnowOf_setDoc, isnowOf_addTagDef]
        · next hdoc =>
            by_cases hx : x = t
            · rw [if_pos hx, hx, isnowOf_setIsnow_self]
              rw [getTagDef_setTitle_ne hne, getTagDef_addTagDef_ne hne]
            · rw [if_neg hx, isnowOf_setIsnow_ne _ hx, isnowOf_setTitle,
                isnowOf_addTagDef]
    · next htitle =>
        split
        · next v2 hdoc =>
            by_cases hx : x = t
            · rw [if_pos hx, hx, isnowOf_setIsnow_self]
              rw [getTagDef_setDoc_ne hne, getTagDef_addTagDef_ne hne]
            · rw [if_neg hx, isnowOf_setIsnow_ne _ hx, isnowOf_setDoc,
                isnowOf_addTagDef]
        · next hdoc =>
            by_cases hx : x = t
            · rw [if_pos hx, hx, isnowOf_setIsnow_self]
              rw [getTagDef_addTagDef_ne hne]
            · rw [if_neg hx, isnowOf_setIsnow_ne _ hx, isnowOf_addTagDef]
theorem step_docOf {o n : String} (hsep : PreFree o n) {t : String}
    (ht : strStarts o t = true) (s : List TagDef × List (String × String)) (x : String) :
    docOf (moveTagDefStep o n s t).1 x
      = if t ≠ o ∧ x = renameTag o n t ∧ (docOf s.1 t).isSome
        then docOf s.1 t else docOf s.1 x := by
  by_cases h : t = o
  · have hst : (moveTagDefStep o n s t).1 = setIsnow s.1 t n := by
      simp [moveTagDefStep, h]
    rw [hst, docOf_setIsnow, if_neg (by simp [h])]
  · have hne : t ≠ renameTag o n t := Ne.symm (rename_ne_of_starts hsep ht)
    simp only [moveTagDefStep, if_neg h]
    split
    · next v1 htitle =>
        split
        · next v2 hdoc =>
            have hdoc2 : docOf s.1 t = some v2 := by
              have hh : docOf (addTagDef s.1 (renameTag o n t)) t = some v2 := hdoc
              rwa [docOf_addTagDef] at hh
            by_cases hx : x = renameTag o n t
            · rw [if_pos ⟨h, hx, by rw [hdoc2]; rfl⟩]
              rw [docOf_setIsnow, docOf_setTitle, hx, docOf_setDoc_self]
              have hp := getTagDef_addTagDef_self s.1 (renameTag o n t)
              cases hg : getTagDef (addTagDef s.1 (renameTag o n t)) (renameTag o n t) with
              | none => exact absurd hg hp
              | some d => simp [hg, hdoc2]
            · rw [if_neg (by simp [hx])]
              rw [docOf_setIsnow, docOf_setTitle, docOf_setDoc_ne _ hx, docOf_addTagDef]
        · next hdoc =>
            have hdoc2 : docOf s.1 t = none := by
              have hh : docOf (addTagDef s.1 (renameTag o n t)) t = none := hdoc
              rwa [docOf_addTagDef] at hh
            rw [if_neg (by simp [hdoc2])]
            rw [docOf_setIsnow, docOf_setTitle, docOf_addTagDef]
    · next htitle =>
        split
        · next v2 hdoc =>
            have hdoc2 : docOf s.1 t = some v2 := by
              have hh : docOf (addTagDef s.1 (renameTag o n t)) t = some v2 := hdoc
              rwa [docOf_addTagDef] at hh
            by_cases hx : x = renameTag o n t
            · rw [if_pos ⟨h, hx, by rw [hdoc2]; rfl⟩]
              rw [docOf_setIsnow, hx, docOf_setDoc_self]
              have hp := getTagDef_addTagDef_self s.1 (renameTag o n t)
              cases hg : getTagDef (addTagDef s.1 (renameTag o n t)) (renameTag o n t) with
              | none => exact absurd hg hp
              | some d => simp [hg, hdoc2]
            · rw [if_neg (by simp [hx])]
              rw [docOf_setIsnow, docOf_setDoc_ne _ hx, docOf_addTagDef]
        · next hdoc =>
            have hdoc2 : docOf s.1 t = none := by
              have hh : docOf (addTagDef s.1 (renameTag o n t)) t = none := hdoc
              rwa [docOf_addTagDef] at hh
            rw [if_neg (by simp [hdoc2])]
            rw [docOf_setIsnow, docOf_addTagDef]

theorem step_titleOf {o n : String} (hsep : PreFree o n) {t : String}
    (ht : strStarts o t = true) (s : List TagDef × List (String × String)) (x : String) :
    titleOf (moveTagDefStep o n s t).1 x
      = if t ≠ o ∧ x = renameTag o n t ∧ (titleOf s.1 t).isSome
        then titleOf s.1 t else titleOf s.1 x := by
  by_cases h : t = o
  · have hst : (moveTagDefStep o n s t).1 = setIsnow s.1 t n := by
      simp [moveTagDefStep, h]
    rw [hst, titleOf_setIsnow, if_neg (by simp [h])]
  · have hne : t ≠ renameTag o n t := Ne.symm (rename_ne_of_starts hsep ht)
    simp only [moveTagDefStep, if_neg h]
    split
    · next v1 htitle =>
        split
        · next v2 hdoc =>
            rw [hdoc] at htitle
            simp only [] at htitle
            have ht2 : titleOf s.1 t = some v1 := by
              have hh : titleOf (setDoc (addTagDef s.1 (renameTag o n t))
                  (renameTag o n t) v2) t = some v1 := htitle
              rwa [titleOf_setDoc, titleOf_addTagDef] at hh
            by_cases hx : x = renameTag o n t
            · rw [if_pos ⟨h, hx, by rw [ht2]; rfl⟩]
              rw [titleOf_setIsnow, hx, titleOf_setTitle_self]
              have hp := getTagDef_addTagDef_self s.1 (renameTag o n t)
              cases hg : getTagDef (setDoc (addTagDef s.1 (renameTag o n t))
                  (renameTag o n t) v2) (renameTag o n t) with
              | none =>
                rw [show getTagDef (setDoc (addTagDef s.1 (renameTag o n t))
                    (renameTag o n t) v2) (renameTag o n t)
                  = (getTagDef (addTagDef s.1 (renameTag o n t)) (renameTag o n t)).map
                      (fun d => { d with doc := some v2 }) from by
                    unfold setDoc
                    exact getTagDef_updateDef_self (fun d => rfl)] at hg
                cases hg2 : getTagDef (addTagDef s.1 (renameTag o n t)) (renameTag o n t) with
                | none => exact absurd hg2 hp
                | some d => rw [hg2] at hg; cases hg
              | some d => simp [hg, ht2]
            · rw [if_neg (by simp [hx])]
              rw [titleOf_setIsnow, titleOf_setTitle_ne _ hx, titleOf_setDoc,
                titleOf_addTagDef]
        · next hdoc =>
            rw [hdoc] at htitle
            simp only [] at htitle
            have ht2 : titleOf s.1 t = some v1 := by
              have hh : titleOf (addTagDef s.1 (renameTag o n t)) t = some v1 := htitle
              rwa [titleOf_addTagDef] at hh
            by_cases hx : x = renameTag o n t
            · rw [if_pos ⟨h, hx, by rw [ht2]; rfl⟩]
              rw [titleOf_setIsnow, hx, titleOf_setTitle_self]
              have hp := getTagDef_addTagDef_self s.1 (renameTag o n t)
              cases hg : getTagDef (addTagDef s.1 (renameTag o n t)) (renameTag o n t) with
              | none => exact absurd hg hp
              | some d => simp [hg, ht2]
            · rw [if_neg (by simp [hx])]
              rw [titleOf_setIsnow, titleOf_setTitle_ne _ hx, titleOf_addTagDef]
    · next htitle =>
        split
        · next v2 hdoc =>
            rw [hdoc] at htitle
            simp only [] at htitle
            have ht2 : titleOf s.1 t = none := by
              have hh : titleOf (setDoc (addTagDef s.1 (renameTag o n t))
                  (renameTag o n t) v2) t = none := htitle
              rwa [titleOf_setDoc, titleOf_addTagDef] at hh
            rw [if_neg (by simp [ht2])]
            rw [titleOf_setIsnow, titleOf_setDoc, titleOf_addTagDef]
        · next hdoc =>
            rw [hdoc] at htitle
            simp only [] at htitle
            have ht2 : titleOf s.1 t = none := by
              have hh : titleOf (addTagDef s.1 (renameTag o n t)) t = none := htitle
              rwa [titleOf_addTagDef] at hh
            rw [if_neg (by simp [ht2])]
            rw [titleOf_setIsnow, titleOf_addTagDef]

theorem step_namesNodup {o n t : String} {s : List TagDef × List (String × String)}
    (hnd : (namesOf s.1).Nodup) :
    (namesOf (moveTagDefStep o n s t).1).Nodup := by
  by_cases h : t = o
  · have hst : (moveTagDefStep o n s t).1 = setIsnow s.1 t n := by
      simp [moveTagDefStep, h]
    rw [hst, namesOf_setIsnow]
    exact hnd
  · simp only [moveTagDefStep, if_neg h]
    split <;> split <;>
      simp only [namesOf_setIsnow, namesOf_setTitle, namesOf_setDoc] <;>
      exact nodup_namesOf_addTagDef _ hnd

theorem step_namesOf_sub {o n t x : String} {s : List TagDef × List (String × String)}
    (hx : x ∈ namesOf s.1) : x ∈ namesOf (moveTagDefStep o n s t).1 := by
  by_cases h : t = o
  · have hst : (moveTagDefStep o n s t).1 = setIsnow s.1 t n := by
      simp [moveTagDefStep, h]
    rw [hst, namesOf_setIsnow]
    exact hx
  · simp only [moveTagDefStep, if_neg h]
    split <;> split <;>
      simp only [namesOf_setIsnow, namesOf_setTitle, namesOf_setDoc] <;>
      exact namesOf_addTagDef_sub _ hx

theorem step_present_rename {o n t : String} {s : List TagDef × List (String × String)}
    (h : t ≠ o) : renameTag o n t ∈ namesOf (moveTagDefStep o n s t).1 := by
  simp only [moveTagDefStep, if_neg h]
  split <;> split <;>
    simp only [namesOf_setIsnow, namesOf_setTitle, namesOf_setDoc] <;>
    exact mem_namesOf_addTagDef _ _

theorem step_enum {o n : String} (hsep : PreFree o n) {t : String}
    (ht : strStarts o t = true) (s : List TagDef × List (String × String)) :
    tagNamesByPre (moveTagDefStep o n s t).1 o = tagNamesByPre s.1 o := by
  by_cases h : t = o
  · have hst : (moveTagDefStep o n s t).1 = setIsnow s.1 t n := by
      simp [moveTagDefStep, h]
    rw [hst, tagNamesByPre_setIsnow]
  · have hR := strStarts_rename_false hsep t
    simp only [moveTagDefStep, if_neg h]
    split <;> split <;>
      simp only [tagNamesByPre_setIsnow, tagNamesByPre_setTitle, tagNamesByPre_setDoc] <;>
      exact tagNamesByPre_addTagDef hR

/-- Invariant of the phase-1 fold over the enumerated (all `oldstr`-prefixed,
distinct, present) tag names: every enumerated definition gets `isnow`
pointing at its renamed name and nothing else gets `isnow` touched; `doc`
and `title` change only at renamed names, where they receive the old
definition's metadata when present; names only grow, stay distinct, and the
set of `oldstr`-prefixed names is unchanged. -/
theorem phase1Fold_facts {o n : String} (hsep : PreFree o n) :
    ∀ (L : List String) (s : List TagDef × List (String × String)),
      (∀ t ∈ L, strStarts o t = true) →
      L.Nodup →
      (∀ t ∈ L, t ∈ namesOf s.1) →
      (namesOf s.1).Nodup →
      (∀ t ∈ L, isnowOf (L.foldl (moveTagDefStep o n) s).1 t
        = some (renameTag o n t)) ∧
      (∀ x, x ∉ L → isnowOf (L.foldl (moveTagDefStep o n) s).1 x = isnowOf s.1 x) ∧
      (∀ x, (∀ t ∈ L, renameTag o n t ≠ x) →
        docOf (L.foldl (moveTagDefStep o n) s).1 x = docOf s.1 x ∧
        titleOf (L.foldl (moveTagDefStep o n) s).1 x = titleOf s.1 x) ∧
      (∀ t ∈ L, t ≠ o → (docOf s.1 t).isSome →
        docOf (L.foldl (moveTagDefStep o n) s).1 (renameTag o n t) = docOf s.1 t) ∧
      (∀ t ∈ L, t ≠ o → (titleOf s.1 t).isSome →
        titleOf (L.foldl (moveTagDefStep o n) s).1 (renameTag o n t)
          = titleOf s.1 t) ∧
      (∀ t ∈ L, t ≠ o →
        renameTag o n t ∈ namesOf (L.foldl (moveTagDefStep o n) s).1) ∧
      (∀ x, x ∈ namesOf s.1 → x ∈ namesOf (L.foldl (moveTagDefStep o n) s).1) ∧
      (namesOf (L.foldl (moveTagDefStep o n) s).1).Nodup ∧
      (tagNamesByPre (L.foldl (moveTagDefStep o n) s).1 o = tagNamesByPre s.1 o) := by
  intro L
  induction L with
  | nil =>
    intro s hst hnd hpres hnames
    refine ⟨by simp, fun x hx => rfl, fun x hx => ⟨rfl, rfl⟩, by simp, by simp,
      by simp, fun x hx => hx, hnames, rfl⟩
  | cons t0 L ih =>
    intro s hst hnd hpres hnames
    have ht0 : strStarts o t0 = true := hst t0 (List.mem_cons_self _ _)
    have ht0m : t0 ∈ namesOf s.1 := hpres t0 (List.mem_cons_self _ _)
    have ht0nin : t0 ∉ L := (List.nodup_cons.mp hnd).1
    have hndL : L.Nodup := (List.nodup_cons.mp hnd).2
    have hstep := moveTagDefStep o n s t0
    obtain ⟨ih1, ih2, ih3, ih4, ih5, ih6, ih7, ih8, ih9⟩ :=
      ih (moveTagDefStep o n s t0)
        (fun t ht => hst t (List.mem_cons_of_mem _ ht)) hndL
        (fun t ht => step_namesOf_sub (hpres t (List.mem_cons_of_mem _ ht)))
        (step_namesNodup hnames)
    rw [List.foldl_cons]
    refine ⟨?_, ?_, ?_, ?_, ?_, ?_, ?_, ih8, ?_⟩
    · intro t ht
      rcases List.mem_cons.mp ht with h0 | hmem
      · subst h0
        rw [ih2 t ht0nin, step_isnowOf hsep ht0 s t, if_pos rfl]
        cases hg : getTagDef s.1 t with
        | none => exact absurd hg (getTagDef_isSome_iff.mpr ht0m)
        | some d => rfl
      · exact ih1 t hmem
    · intro x hx
      have hx0 : x ≠ t0 := fun he => hx (he ▸ List.mem_cons_self _ _)
      have hxL : x ∉ L := fun hm => hx (List.mem_cons_of_mem _ hm)
      rw [ih2 x hxL, step_isnowOf hsep ht0 s x, if_neg hx0]
    · intro x hx
      have hx0 : renameTag o n t0 ≠ x := hx t0 (List.mem_cons_self _ _)
      have hxL : ∀ t ∈ L, renameTag o n t ≠ x :=
        fun t ht => hx t (List.mem_cons_of_mem _ ht)
      obtain ⟨ihd, iht⟩ := ih3 x hxL
      constructor
      · rw [ihd, step_docOf hsep ht0 s x, if_neg (by
          rintro ⟨h1, h2, h3⟩
          exact hx0 h2.symm)]
      · rw [iht, step_titleOf hsep ht0 s x, if_neg (by
          rintro ⟨h1, h2, h3⟩
          exact hx0 h2.symm)]
    · intro t ht hto hsome
      rcases List.mem_cons.mp ht with h0 | hmem
      · subst h0
        have hstab : ∀ t2 ∈ L, renameTag o n t2 ≠ renameTag o n t := by
          intro t2 ht2 he
          exact ht0nin (renameTag_inj (hst t2 (List.mem_cons_of_mem _ ht2)) ht0 he ▸ ht2)
        rw [(ih3 _ hstab).1, step_docOf hsep ht0 s (renameTag o n t),
          if_pos ⟨hto, rfl, hsome⟩]
      · have hne2 : t ≠ renameTag o n t0 := by
          intro he
          have hrf := strStarts_rename_false hsep t0
          rw [← he] at hrf
          rw [hst t (List.mem_cons_of_mem _ hmem)] at hrf
          exact Bool.noConfusion hrf
        have hstep2 : docOf (moveTagDefStep o n s t0).1 t = docOf s.1 t := by
          rw [step_docOf hsep ht0 s t, if_neg (by
            rintro ⟨h1, h2, h3⟩
            exact hne2 h2)]
        rw [ih4 t hmem hto (by rw [hstep2]; exact hsome), hstep2]
    · intro t ht hto hsome
      rcases List.mem_cons.mp ht with h0 | hmem
      · subst h0
        have hstab : ∀ t2 ∈ L, renameTag o n t2 ≠ renameTag o n t := by
          intro t2 ht2 he
          exact ht0nin (renameTag_inj (hst t2 (List.mem_cons_of_mem _ ht2)) ht0 he ▸ ht2)
        rw [(ih3 _ hstab).2, step_titleOf hsep ht0 s (renameTag o n t),
          if_pos ⟨hto, rfl, hsome⟩]
      · have hne2 : t ≠ renameTag o n t0 := by
          intro he
          have hrf := strStarts_rename_false hsep t0
          rw [← he] at hrf
          rw [hst t (List.mem_cons_of_mem _ hmem)] at hrf
          exact Bool.noConfusion hrf
        have hstep2 : titleOf (moveTagDefStep o n s t0).1 t = titleOf s.1 t := by
          rw [step_titleOf hsep ht0 s t, if_neg (by
            rintro ⟨h1, h2, h3⟩
            exact hne2 h2)]
        rw [ih5 t hmem hto (by rw [hstep2]; exact hsome), hstep2]
    · intro t ht hto
      rcases List.mem_cons.mp ht with h0 | hmem
      · subst h0
        exact ih7 _ (step_present_rename hto)
      · exact ih6 t hmem hto
    · intro x hx
      exact ih7 x (step_namesOf_sub hx)
    · rw [ih9, step_enum hsep ht0 s]

/-! ### movetag: retag-map lemmas -/

theorem phase1_retag_eq (o n : String) :
    ∀ (L : List String) (s : List TagDef × List (String × String)),
      (L.foldl (moveTagDefStep o n) s).2
        = s.2 ++ (L.filter (fun t => t != o)).map (fun t => (t, renameTag o n t)) := by
  intro L
  induction L with
  | nil => intro s; simp
  | cons t0 L ih =>
    intro s
    rw [List.foldl_cons, ih]
    by_cases h : t0 = o
    · have hs2 : (moveTagDefStep o n s t0).2 = s.2 := by
        simp [moveTagDefStep, h]
      rw [hs2, List.filter_cons]
      simp [h]
    · have hs2 : (moveTagDefStep o n s t0).2 = s.2 ++ [(t0, renameTag o n t0)] := by
        simp [moveTagDefStep, h]
      rw [hs2, List.filter_cons]
      simp [h, List.append_assoc]

theorem lookupRetag_entry {retag : List (String × String)} {x y : String}
    (h : lookupRetag retag x = some y) : (x, y) ∈ retag := by
  unfold lookupRetag at h
  cases hf : retag.find? (fun kv => kv.1 == x) with
  | none => rw [hf] at h; cases h
  | some kv =>
    rw [hf] at h
    have hkv1 : kv.1 = x := by simpa using List.find?_some hf
    have hm := List.mem_of_find?_eq_some hf
    have hkv2 : kv.2 = y := by simpa using h
    have : kv = (x, y) := Prod.ext hkv1 hkv2
    rwa [this] at hm

theorem lookupRetag_phase1 {o n : String} {defs : List TagDef} {x y : String}
    (h : lookupRetag (moveTagPhase1 o n defs).2 x = some y) :
    strStarts o x = true ∧ y = renameTag o n x := by
  have hmem := lookupRetag_entry h
  unfold moveTagPhase1 at hmem
  rw [phase1_retag_eq] at hmem
  rcases List.mem_append.mp hmem with hl | hr
  · rw [List.mem_singleton] at hl
    have hx : x = o := congrArg Prod.fst hl
    have hy : y = n := congrArg Prod.snd hl
    subst hx
    rw [hy, renameTag_old]
    exact ⟨strStarts_refl x, rfl⟩
  · obtain ⟨t, htf, hte⟩ := List.mem_map.mp hr
    have hfil := List.mem_filter.mp htf
    have hx : t = x := congrArg Prod.fst hte
    have hy : renameTag o n t = y := congrArg Prod.snd hte
    subst hx
    exact ⟨(mem_tagNamesByPre.mp hfil.1).2, hy.symm⟩

theorem retag_inj {o n : String} {defs : List TagDef} {x1 x2 y : String}
    (h1 : lookupRetag (moveTagPhase1 o n defs).2 x1 = some y)
    (h2 : lookupRetag (moveTagPhase1 o n defs).2 x2 = some y) : x1 = x2 := by
  obtain ⟨hp1, hy1⟩ := lookupRetag_phase1 h1
  obtain ⟨hp2, hy2⟩ := lookupRetag_phase1 h2
  exact renameTag_inj hp1 hp2 (by rw [← hy1, ← hy2])

theorem retag_not_key {o n : String} {defs : List TagDef} (hsep : PreFree o n)
    {x y : String} (h : lookupRetag (moveTagPhase1 o n defs).2 x = some y) :
    lookupRetag (moveTagPhase1 o n defs).2 y = none := by
  obtain ⟨hx, hy⟩ := lookupRetag_phase1 h
  cases hl : lookupRetag (moveTagPhase1 o n defs).2 y with
  | none => rfl
  | some z =>
    obtain ⟨hy2, _⟩ := lookupRetag_phase1 hl
    rw [hy, strStarts_rename_false hsep x] at hy2
    exact Bool.noConfusion hy2

/-! ### movetag: node application lemmas -/

theorem delTag_mem_iff {n : DataNode} {nm a : String} {b : Option (Nat × Nat)} :
    (a, b) ∈ (delTag n nm).tags ↔ (a, b) ∈ n.tags ∧ a ≠ nm := by
  unfold delTag
  simp [List.mem_filter, bne_iff_ne]

theorem addTag_mem_self (n : DataNode) (nm : String) (v : Option (Nat × Nat)) :
    (nm, v) ∈ (addTag n nm v).tags := by
  unfold addTag
  by_cases h : n.tags.any (fun tv => tv.1 == nm) = true
  · rw [if_pos h]
    obtain ⟨tv, htv, he⟩ := List.any_eq_true.mp h
    refine List.mem_map.mpr ⟨tv, htv, ?_⟩
    have h1 : tv.1 = nm := by simpa using he
    rw [if_pos h1]
  · rw [if_neg h]
    exact List.mem_append.mpr (Or.inr (List.mem_singleton.mpr rfl))

theorem addTag_mem_other {n : DataNode} {nm a : String} {v b : Option (Nat × Nat)}
    (hab : (a, b) ∈ n.tags) (hne : a ≠ nm) : (a, b) ∈ (addTag n nm v).tags := by
  unfold addTag
  by_cases h : n.tags.any (fun tv => tv.1 == nm) = true
  · rw [if_pos h]
    refine List.mem_map.mpr ⟨(a, b), hab, ?_⟩
    simp [hne]
  · rw [if_neg h]
    exact List.mem_append.mpr (Or.inl hab)

theorem addTag_mem_elim {n : DataNode} {nm a : String} {v b : Option (Nat × Nat)}
    (h : (a, b) ∈ (addTag n nm v).tags) :
    (a = nm ∧ b = v) ∨ ((a, b) ∈ n.tags ∧ a ≠ nm) := by
  unfold addTag at h
  by_cases hc : n.tags.any (fun tv => tv.1 == nm) = true
  · rw [if_pos hc] at h
    obtain ⟨tv, htv, he⟩ := List.mem_map.mp h
    by_cases ht : tv.1 = nm
    · rw [if_pos ht] at he
      exact Or.inl ⟨(congrArg Prod.fst he).symm, (congrArg Prod.snd he).symm⟩
    · rw [if_neg ht] at he
      refine Or.inr ⟨he ▸ htv, fun hh => ht ?_⟩
      rw [show tv.1 = a from congrArg Prod.fst he, hh]
  · rw [if_neg hc] at h
    rcases List.mem_append.mp h with h1 | h2
    · refine Or.inr ⟨h1, fun he => ?_⟩
      exact hc (List.any_eq_true.mpr ⟨(a, b), h1, by simp [he]⟩)
    · rw [List.mem_singleton] at h2
      exact Or.inl ⟨congrArg Prod.fst h2, congrArg Prod.snd h2⟩

theorem retagNode_eq_foldl (R : List (String × String)) (n : DataNode) :
    retagNode R n = (sortTagsDesc n.tags).foldl (fun nd tv =>
      match lookupRetag R tv.1 with
      | none => nd
      | some newt => addTag (delTag nd tv.1) newt tv.2) n := rfl

theorem retagFold_preserves (R : List (String × String)) :
    ∀ (S : List (String × Option (Nat × Nat))) (nd : DataNode) {t2 : String}
      {v : Option (Nat × Nat)},
      (t2, v) ∈ nd.tags →
      (∀ p ∈ S, ∀ y, lookupRetag R p.1 = some y → y ≠ t2 ∧ p.1 ≠ t2) →
      (t2, v) ∈ (S.foldl (fun nd tv =>
        match lookupRetag R tv.1 with
        | none => nd
        | some newt => addTag (delTag nd tv.1) newt tv.2) nd).tags := by
  intro S
  induction S with
  | nil =>
    intro nd t2 v h _
    exact h
  | cons p S ih =>
    intro nd t2 v h hcond
    rw [List.foldl_cons]
    cases hl : lookupRetag R p.1 with
    | none =>
      simp only [hl]
      exact ih nd h (fun q hq => hcond q (List.mem_cons_of_mem _ hq))
    | some newt =>
      simp only [hl]
      obtain ⟨hyne, hpne⟩ := hcond p (List.mem_cons_self _ _) newt hl
      refine ih _ ?_ (fun q hq => hcond q (List.mem_cons_of_mem _ hq))
      exact addTag_mem_other (delTag_mem_iff.mpr ⟨h, Ne.symm hpne⟩) (Ne.symm hyne)

theorem retagFold_adds (R : List (String × String))
    (hinj : ∀ x1 x2 y, lookupRetag R x1 = some y → lookupRetag R x2 = some y → x1 = x2)
    (hR3 : ∀ x y, lookupRetag R x = some y → lookupRetag R y = none) :
    ∀ (S : List (String × Option (Nat × Nat))) (nd : DataNode) (t : String)
      (v : Option (Nat × Nat)) (t2 : String),
      (t, v) ∈ S → (S.map Prod.fst).Nodup → lookupRetag R t = some t2 →
      (t2, v) ∈ (S.foldl (fun nd tv =>
        match lookupRetag R tv.1 with
        | none => nd
        | some newt => addTag (delTag nd tv.1) newt tv.2) nd).tags := by
  intro S
  induction S with
  | nil =>
    intro nd t v t2 h
    simp at h
  | cons p S ih =>
    intro nd t v t2 hmem hnd hl
    rw [List.foldl_cons]
    rcases List.mem_cons.mp hmem with h0 | hS
    · subst h0
      simp only [hl]
      apply retagFold_preserves
      · exact addTag_mem_self _ _ _
      · intro q hq y hly
        constructor
        · intro he
          rw [he] at hly
          have hq1 : q.1 = t := hinj q.1 t t2 hly hl
          rw [List.map_cons] at hnd
          exact absurd (hq1 ▸ List.mem_map.mpr ⟨q, hq, rfl⟩) (List.nodup_cons.mp hnd).1
        · intro he
          rw [he, hR3 t t2 hl] at hly
          exact Option.noConfusion hly
    · have hnd2 : (S.map Prod.fst).Nodup := by
        rw [List.map_cons] at hnd
        exact (List.nodup_cons.mp hnd).2
      cases hl2 : lookupRetag R p.1 with
      | none =>
        simp only [hl2]
        exact ih nd t v t2 hS hnd2 hl
      | some w =>
        simp only [hl2]
        exact ih _ t v t2 hS hnd2 hl

theorem retagFold_clears (R : List (String × String))
    (hR3 : ∀ x y, lookupRetag R x = some y → lookupRetag R y = none) :
    ∀ (S : List (String × Option (Nat × Nat))) (nd : DataNode),
      (∀ u w, (u, w) ∈ nd.tags → ∀ y, lookupRetag R u = some y → u ∈ S.map Prod.fst) →
      ∀ u w, (u, w) ∈ (S.foldl (fun nd tv =>
        match lookupRetag R tv.1 with
        | none => nd
        | some newt => addTag (delTag nd tv.1) newt tv.2) nd).tags →
      lookupRetag R u = none := by
  intro S
  induction S with
  | nil =>
    intro nd hcov u w hm
    cases hl : lookupRetag R u with
    | none => rfl
    | some y => exact absurd (hcov u w hm y hl) (by simp)
  | cons p S ih =>
    intro nd hcov u w hm
    rw [List.foldl_cons] at hm
    cases hl : lookupRetag R p.1 with
    | none =>
      simp only [hl] at hm
      refine ih nd ?_ u w hm
      intro u2 w2 hm2 y hly
      have hin := hcov u2 w2 hm2 y hly
      rw [List.map_cons] at hin
      rcases List.mem_cons.mp hin with h0 | hS
      · rw [h0, hl] at hly
        exact Option.noConfusion hly
      · exact hS
    | some newt =>
      simp only [hl] at hm
      refine ih (addTag (delTag nd p.1) newt p.2) ?_ u w hm
      intro u2 w2 hm2 y hly
      rcases addTag_mem_elim hm2 with ⟨he, _⟩ | ⟨hmem2, hne⟩
      · rw [he, hR3 p.1 newt hl] at hly
        exact Option.noConfusion hly
      · obtain ⟨hmem3, hne3⟩ := delTag_mem_iff.mp hmem2
        have hin := hcov u2 w2 hmem3 y hly
        rw [List.map_cons] at hin
        rcases List.mem_cons.mp hin with h0 | hS
        · exact absurd h0 hne3
        · exact hS

theorem retagFold_skip (R : List (String × String)) :
    ∀ (S : List (String × Option (Nat × Nat))) (nd : DataNode),
      (∀ p ∈ S, lookupRetag R p.1 = none) →
      S.foldl (fun nd tv =>
        match lookupRetag R tv.1 with
        | none => nd
        | some newt => addTag (delTag nd tv.1) newt tv.2) nd = nd := by
  intro S
  induction S with
  | nil => intro nd h; rfl
  | cons p S ih =>
    intro nd h
    rw [List.foldl_cons]
    have hl := h p (List.mem_cons_self _ _)
    simp only [hl]
    exact ih nd (fun q hq => h q (List.mem_cons_of_mem _ hq))

theorem mem_sortTagsDesc {tags : List (String × Option (Nat × Nat))}
    {p : String × Option (Nat × Nat)} :
    p ∈ sortTagsDesc tags ↔ p ∈ tags := by
  unfold sortTagsDesc
  constructor
  · intro h
    exact (List.perm_insertionSort _ tags).mem_iff.mp h
  · intro h
    exact (List.perm_insertionSort _ tags).mem_iff.mpr h

theorem sortTagsDesc_names_nodup {tags : List (String × Option (Nat × Nat))}
    (h : (tags.map Prod.fst).Nodup) : ((sortTagsDesc tags).map Prod.fst).Nodup := by
  unfold sortTagsDesc
  exact ((List.perm_insertionSort _ tags).map Prod.fst).nodup_iff.mpr h

theorem retagNode_adds {R : List (String × String)} {n : DataNode}
    {t : String} {v : Option (Nat × Nat)} {t2 : String}
    (hinj : ∀ x1 x2 y, lookupRetag R x1 = some y → lookupRetag R x2 = some y → x1 = x2)
    (hR3 : ∀ x y, lookupRetag R x = some y → lookupRetag R y = none)
    (hnd : (n.tags.map Prod.fst).Nodup)
    (hm : (t, v) ∈ n.tags) (hl : lookupRetag R t = some t2) :
    (t2, v) ∈ (retagNode R n).tags := by
  rw [retagNode_eq_foldl]
  exact retagFold_adds R hinj hR3 _ n t v t2 (mem_sortTagsDesc.mpr hm)
    (sortTagsDesc_names_nodup hnd) hl

theorem retagNode_clears {R : List (String × String)} {n : DataNode}
    (hR3 : ∀ x y, lookupRetag R x = some y → lookupRetag R y = none) :
    ∀ u w, (u, w) ∈ (retagNode R n).tags → lookupRetag R u = none := by
  intro u w hm
  rw [retagNode_eq_foldl] at hm
  refine retagFold_clears R hR3 _ n ?_ u w hm
  intro u2 w2 hm2 y hly
  exact List.mem_map.mpr ⟨(u2, w2), mem_sortTagsDesc.mpr hm2, rfl⟩

theorem retagNode_skip {R : List (String × String)} {n : DataNode}
    (h : ∀ u w, (u, w) ∈ n.tags → lookupRetag R u = none) :
    retagNode R n = n := by
  rw [retagNode_eq_foldl]
  exact retagFold_skip R _ n (fun p hp => h p.1 p.2 (mem_sortTagsDesc.mp hp))

/-! ### movetag: second-run identity lemmas -/

theorem updateDef_id {defs : List TagDef} {nm : String} {g : TagDef → TagDef}
    (h : ∀ d ∈ defs, d.name = nm → g d = d) : updateDef defs nm g = defs := by
  unfold updateDef
  have he : defs.map (fun d => if d.name = nm then g d else d) = defs.map id := by
    apply List.map_congr_left
    intro d hd
    by_cases hh : d.name = nm
    · rw [if_pos hh]
      exact h d hd hh
    · rw [if_neg hh]
      rfl
  rw [he, List.map_id]

theorem setIsnow_id {defs : List TagDef} {nm v : String}
    (h : ∀ d ∈ defs, d.name = nm → d.isnow = some v) : setIsnow defs nm v = defs := by
  unfold setIsnow
  refine updateDef_id fun d hd hn => ?_
  have hv := h d hd hn
  cases d
  simp only at hv
  rw [hv]

theorem setDoc_id {defs : List TagDef} {nm v : String}
    (h : ∀ d ∈ defs, d.name = nm → d.doc = some v) : setDoc defs nm v = defs := by
  unfold setDoc
  refine updateDef_id fun d hd hn => ?_
  have hv := h d hd hn
  cases d
  simp only at hv
  rw [hv]

theorem setTitle_id {defs : List TagDef} {nm v : String}
    (h : ∀ d ∈ defs, d.name = nm → d.title = some v) : setTitle defs nm v = defs := by
  unfold setTitle
  refine updateDef_id fun d hd hn => ?_
  have hv := h d hd hn
  cases d
  simp only at hv
  rw [hv]

theorem foldl_defs_id (o n : String) :
    ∀ (L : List String) (D : List TagDef) (r : List (String × String)),
      (∀ t ∈ L, ∀ r2 : List (String × String), (moveTagDefStep o n (D, r2) t).1 = D) →
      (L.foldl (moveTagDefStep o n) (D, r)).1 = D := by
  intro L
  induction L with
  | nil => intro D r h; rfl
  | cons t0 L ih =>
    intro D r h
    rw [List.foldl_cons]
    have he : moveTagDefStep o n (D, r) t0 = (D, (moveTagDefStep o n (D, r) t0).2) :=
      Prod.ext (h t0 (List.mem_cons_self _ _) r) rfl
    rw [he]
    exact ih D _ (fun t ht r2 => h t (List.mem_cons_of_mem _ ht) r2)

/-- After phase 1 has run once, running one definition-rewrite step again
leaves the definitions unchanged: every field it would set already holds
the value it would write. -/
theorem run2_step_id {o n : String} (hsep : PreFree o n) {L : List String}
    {D : List TagDef}
    (hL : ∀ t ∈ L, strStarts o t = true)
    (hnodupD : (namesOf D).Nodup)
    (hisnow : ∀ t ∈ L, isnowOf D t = some (renameTag o n t))
    (hpresR : ∀ t ∈ L, t ≠ o → renameTag o n t ∈ namesOf D)
    (hdoccpy : ∀ t ∈ L, t ≠ o → ∀ v, docOf D t = some v →
      docOf D (renameTag o n t) = some v)
    (htitcpy : ∀ t ∈ L, t ≠ o → ∀ v, titleOf D t = some v →
      titleOf D (renameTag o n t) = some v) :
    ∀ t ∈ L, ∀ r2 : List (String × String), (moveTagDefStep o n (D, r2) t).1 = D := by
  intro t htL r2
  by_cases h : t = o
  · have hstep : (moveTagDefStep o n (D, r2) t).1 = setIsnow D t n := by
      simp [moveTagDefStep, h]
    rw [hstep]
    apply setIsnow_id
    intro d hd hn2
    have hgd : getTagDef D t = some d := by
      rw [← hn2]
      exact getTagDef_of_mem_nodup hnodupD hd
    have hio := hisnow t htL
    unfold isnowOf at hio
    rw [hgd, h] at hio
    rw [renameTag_old] at hio
    simpa using hio
  · have hR := hpresR t htL h
    simp only [moveTagDefStep, if_neg h]
    rw [addTagDef_of_present hR]
    split
    · next v1 htitle =>
      split
      · next v2 hdoc =>
        have hdoc2 : docOf D t = some v2 := hdoc
        rw [hdoc] at htitle
        simp only [] at htitle
        have ht2 : titleOf D t = some v1 := by
          have hh : titleOf (setDoc D (renameTag o n t) v2) t = some v1 := htitle
          rwa [titleOf_setDoc] at hh
        have hsd : setDoc D (renameTag o n t) v2 = D := by
          apply setDoc_id
          intro d hd hn2
          have hgd : getTagDef D (renameTag o n t) = some d := by
            rw [← hn2]
            exact getTagDef_of_mem_nodup hnodupD hd
          have hcp := hdoccpy t htL h v2 hdoc2
          unfold docOf at hcp
          rw [hgd] at hcp
          simpa using hcp
        rw [hsd]
        have hst : setTitle D (renameTag o n t) v1 = D := by
          apply setTitle_id
          intro d hd hn2
          have hgd : getTagDef D (renameTag o n t) = some d := by
            rw [← hn2]
            exact getTagDef_of_mem_nodup hnodupD hd
          have hcp := htitcpy t htL h v1 ht2
          unfold titleOf at hcp
          rw [hgd] at hcp
          simpa using hcp
        rw [hst]
        apply setIsnow_id
        intro d hd hn2
        have hgd : getTagDef D t = some d := by
          rw [← hn2]
          exact getTagDef_of_mem_nodup hnodupD hd
        have hio := hisnow t htL
        unfold isnowOf at hio
        rw [hgd] at hio
        simpa using hio
      · next hdoc =>
        rw [hdoc] at htitle
        simp only [] at htitle
        have ht2 : titleOf D t = some v1 := htitle
        have hst : setTitle D (renameTag o n t) v1 = D := by
          apply setTitle_id
          intro d hd hn2
          have hgd : getTagDef D (renameTag o n t) = some d := by
            rw [← hn2]
            exact getTagDef_of_mem_nodup hnodupD hd
          have hcp := htitcpy t htL h v1 ht2
          unfold titleOf at hcp
          rw [hgd] at hcp
          simpa using hcp
        rw [hst]
        apply setIsnow_id
        intro d hd hn2
        have hgd : getTagDef D t = some d := by
          rw [← hn2]
          exact getTagDef_of_mem_nodup hnodupD hd
        have hio := hisnow t htL
        unfold isnowOf at hio
        rw [hgd] at hio
        simpa using hio
    · next htitle =>
      split
      · next v2 hdoc =>
        have hdoc2 : docOf D t = some v2 := hdoc
        have hsd : setDoc D (renameTag o n t) v2 = D := by
          apply setDoc_id
          intro d hd hn2
          have hgd : getTagDef D (renameTag o n t) = some d := by
            rw [← hn2]
            exact getTagDef_of_mem_nodup hnodupD hd
          have hcp := hdoccpy t htL h v2 hdoc2
          unfold docOf at hcp
          rw [hgd] at hcp
          simpa using hcp
        rw [hsd]
        apply setIsnow_id
        intro d hd hn2
        have hgd : getTagDef D t = some d := by
          rw [← hn2]
          exact getTagDef_of_mem_nodup hnodupD hd
        have hio := hisnow t htL
        unfold isnowOf at hio
        rw [hgd] at hio
        simpa using hio
      · next hdoc =>
        apply setIsnow_id
        intro d hd hn2
        have hgd : getTagDef D t = some d := by
          rw [← hn2]
          exact getTagDef_of_mem_nodup hnodupD hd
        have hio := hisnow t htL
        unfold isnowOf at hio
        rw [hgd] at hio
        simpa using hio

theorem moveTagPhase2_id {o : String} {R : List (String × String)}
    (hR3 : ∀ x y, lookupRetag R x = some y → lookupRetag R y = none)
    (nodes : List DataNode) :
    moveTagPhase2 o R (moveTagPhase2 o R nodes) = moveTagPhase2 o R nodes := by
  unfold moveTagPhase2
  have hpt : ∀ m ∈ nodes.map (fun nd => if hasTagUnder nd o then retagNode R nd else nd),
      (if hasTagUnder m o then retagNode R m else m) = m := by
    intro m hm
    obtain ⟨nd, hnd2, rfl⟩ := List.mem_map.mp hm
    by_cases hu : hasTagUnder nd o = true
    · rw [if_pos hu]
      by_cases hu2 : hasTagUnder (retagNode R nd) o = true
      · rw [if_pos hu2]
        exact retagNode_skip (retagNode_clears hR3)
      · rw [if_neg hu2]
    · rw [if_neg hu, if_neg hu]
  calc (nodes.map (fun nd => if hasTagUnder nd o then retagNode R nd else nd)).map
        (fun nd => if hasTagUnder nd o then retagNode R nd else nd)
      = (nodes.map (fun nd => if hasTagUnder nd o then retagNode R nd else nd)).map id :=
        List.map_congr_left hpt
    _ = nodes.map (fun nd => if hasTagUnder nd o then retagNode R nd else nd) :=
        List.map_id _

theorem movetag_unfold (o n : String) (st : Store) :
    moveTag o n st
      = ⟨(moveTagPhase1 o n (addTagDef (addTagDef st.tagdefs o) n)).1,
         moveTagPhase2 o (moveTagPhase1 o n (addTagDef (addTagDef st.tagdefs o) n)).2
           st.nodes⟩ := rfl

/-- C5: movetag is idempotent when oldtag and newtag are mutually
prefix-free: running `moveTag o n` twice with the same arguments leaves
exactly the store produced by running it once, provided the stored tag
definition names are distinct. (Without the prefix-freeness side condition
idempotence fails: see the overlapping rename `foo` to `foo.x`.) -/
theorem movetag_idempotent (o n : String) (st : Store)
    (hnd : (namesOf st.tagdefs).Nodup) (hsep : PreFree o n) :
    moveTag o n (moveTag o n st) = moveTag o n st := by
  have hnd1 : (namesOf (phase1Defs o n st)).Nodup :=
    nodup_namesOf_addTagDef _ (nodup_namesOf_addTagDef _ hnd)
  have hL1 : ∀ t ∈ phase1Enum o n st, strStarts o t = true :=
    fun t ht => (mem_tagNamesByPre.mp ht).2
  have hL2 : (phase1Enum o n st).Nodup := tagNamesByPre_nodup hnd1 o
  have hL3 : ∀ t ∈ phase1Enum o n st, t ∈ namesOf (phase1Defs o n st) :=
    fun t ht => (mem_tagNamesByPre.mp ht).1
  obtain ⟨f1, f2, f3, f4, f5, f6, f7, f8, f9⟩ :=
    phase1Fold_facts hsep (phase1Enum o n st) (phase1Defs o n st, [(o, n)])
      hL1 hL2 hL3 hnd1
  have hfold : moveTagPhase1 o n (phase1Defs o n st)
      = (phase1Enum o n st).foldl (moveTagDefStep o n)
          (phase1Defs o n st, [(o, n)]) := rfl
  rw [← hfold] at f1 f2 f3 f4 f5 f6 f7 f8 f9
  simp only [] at f2 f3 f4 f5 f7 f9
  have hoD : o ∈ namesOf (moveTagPhase1 o n (phase1Defs o n st)).1 :=
    f7 o (namesOf_addTagDef_sub n (mem_namesOf_addTagDef st.tagdefs o))
  have hnD : n ∈ namesOf (moveTagPhase1 o n (phase1Defs o n st)).1 :=
    f7 n (mem_namesOf_addTagDef _ n)
  have ha1 : addTagDef (moveTagPhase1 o n (phase1Defs o n st)).1 o
      = (moveTagPhase1 o n (phase1Defs o n st)).1 := addTagDef_of_present hoD
  have ha2 : addTagDef (moveTagPhase1 o n (phase1Defs o n st)).1 n
      = (moveTagPhase1 o n (phase1Defs o n st)).1 := addTagDef_of_present hnD
  have hdoccpyD : ∀ t ∈ phase1Enum o n st, t ≠ o → ∀ v,
      docOf (moveTagPhase1 o n (phase1Defs o n st)).1 t = some v →
      docOf (moveTagPhase1 o n (phase1Defs o n st)).1 (renameTag o n t) = some v := by
    intro t ht hto v hv
    have hstab : ∀ t2 ∈ phase1Enum o n st, renameTag o n t2 ≠ t := by
      intro t2 ht2 he
      have hrf := strStarts_rename_false hsep t2
      rw [he, hL1 t ht] at hrf
      exact Bool.noConfusion hrf
    have hst := (f3 t hstab).1
    have hb : docOf (phase1Defs o n st) t = some v := by
      rw [← hst]
      exact hv
    have hc := f4 t ht hto (by rw [hb]; rfl)
    rw [hc, hb]
  have htitcpyD : ∀ t ∈ phase1Enum o n st, t ≠ o → ∀ v,
      titleOf (moveTagPhase1 o n (phase1Defs o n st)).1 t = some v →
      titleOf (moveTagPhase1 o n (phase1Defs o n st)).1 (renameTag o n t) = some v := by
    intro t ht hto v hv
    have hstab : ∀ t2 ∈ phase1Enum o n st, renameTag o n t2 ≠ t := by
      intro t2 ht2 he
      have hrf := strStarts_rename_false hsep t2
      rw [he, hL1 t ht] at hrf
      exact Bool.noConfusion hrf
    have hst := (f3 t hstab).2
    have hb : titleOf (phase1Defs o n st) t = some v := by
      rw [← hst]
      exact hv
    have hc := f5 t ht hto (by rw [hb]; rfl)
    rw [hc, hb]
  have hstepid := run2_step_id hsep hL1 f8 f1 f6 hdoccpyD htitcpyD
  have hD1 : addTagDef (addTagDef (moveTagPhase1 o n (phase1Defs o n st)).1 o) n
      = (moveTagPhase1 o n (phase1Defs o n st)).1 := by
    rw [ha1, ha2]
  have hph2 : moveTagPhase1 o n
        (addTagDef (addTagDef (moveTagPhase1 o n (phase1Defs o n st)).1 o) n)
      = (phase1Enum o n st).foldl (moveTagDefStep o n)
          ((moveTagPhase1 o n (phase1Defs o n st)).1, [(o, n)]) := by
    rw [hD1]
    rw [show moveTagPhase1 o n (moveTagPhase1 o n (phase1Defs o n st)).1
        = (tagNamesByPre (moveTagPhase1 o n (phase1Defs o n st)).1 o).foldl
            (moveTagDefStep o n) ((moveTagPhase1 o n (phase1Defs o n st)).1, [(o, n)])
      from rfl]
    rw [f9]
    rfl
  have hdefs2 : (moveTagPhase1 o n
        (addTagDef (addTagDef (moveTagPhase1 o n (phase1Defs o n st)).1 o) n)).1
      = (moveTagPhase1 o n (phase1Defs o n st)).1 := by
    rw [hph2]
    exact foldl_defs_id o n _ _ _ hstepid
  have hret2 : (moveTagPhase1 o n
        (addTagDef (addTagDef (moveTagPhase1 o n (phase1Defs o n st)).1 o) n)).2
      = (moveTagPhase1 o n (phase1Defs o n st)).2 := by
    rw [hph2, phase1_retag_eq]
    have h1 : (moveTagPhase1 o n (phase1Defs o n st)).2
        = [(o, n)] ++ ((phase1Enum o n st).filter (fun t => t != o)).map
            (fun t => (t, renameTag o n t)) := by
      rw [hfold, phase1_retag_eq]
    rw [h1]
  have hR3 : ∀ x y, lookupRetag (moveTagPhase1 o n (phase1Defs o n st)).2 x = some y →
      lookupRetag (moveTagPhase1 o n (phase1Defs o n st)).2 y = none :=
    fun x y h => retag_not_key hsep h
  have hnodes2 := moveTagPhase2_id (o := o) hR3 st.nodes
  calc moveTag o n (moveTag o n st)
      = ⟨(moveTagPhase1 o n
            (addTagDef (addTagDef (moveTagPhase1 o n (phase1Defs o n st)).1 o) n)).1,
          moveTagPhase2 o
            (moveTagPhase1 o n
              (addTagDef (addTagDef (moveTagPhase1 o n (phase1Defs o n st)).1 o) n)).2
            (moveTagPhase2 o (moveTagPhase1 o n (phase1Defs o n st)).2 st.nodes)⟩ := rfl
    _ = ⟨(moveTagPhase1 o n (phase1Defs o n st)).1,
          moveTagPhase2 o (moveTagPhase1 o n (phase1Defs o n st)).2
            (moveTagPhase2 o (moveTagPhase1 o n (phase1Defs o n st)).2 st.nodes)⟩ := by
        rw [hdefs2, hret2]
    _ = ⟨(moveTagPhase1 o n (phase1Defs o n st)).1,
          moveTagPhase2 o (moveTagPhase1 o n (phase1Defs o n st)).2 st.nodes⟩ := by
        rw [hnodes2]
    _ = moveTag o n st := rfl

/-- C6: for mutually prefix-free rename arguments, phase 1 rewrites exactly
the tag definitions whose name starts with oldtag as a character-level
string prefix (the `^=` comparator): each enumerated name gets `isnow` set
to the renamed name obtained by substituting the prefix, the renamed
definition exists afterwards, `doc` and `title` are copied when present,
and every non-enumerated definition keeps its `isnow` unchanged. The
enumeration is by plain string prefix, not dotted-path prefix: `foo.barbaz`
is enumerated and rewritten for oldtag `foo.bar`. -/
theorem movetag_phase1_rewrites (o n : String) (st : Store)
    (hnd : (namesOf st.tagdefs).Nodup) (hsep : PreFree o n) :
    (∀ t, t ∈ phase1Enum o n st ↔
      t ∈ namesOf (phase1Defs o n st) ∧ strStarts o t = true) ∧
    (∀ t ∈ phase1Enum o n st,
      isnowOf (moveTag o n st).tagdefs t = some (renameTag o n t) ∧
      (t ≠ o → renameTag o n t ∈ namesOf (moveTag o n st).tagdefs) ∧
      (t ≠ o → ∀ v, docOf (phase1Defs o n st) t = some v →
        docOf (moveTag o n st).tagdefs (renameTag o n t) = some v) ∧
      (t ≠ o → ∀ v, titleOf (phase1Defs o n st) t = some v →
        titleOf (moveTag o n st).tagdefs (renameTag o n t) = some v)) ∧
    (∀ x, x ∉ phase1Enum o n st →
      isnowOf (moveTag o n st).tagdefs x = isnowOf (phase1Defs o n st) x) := by
  have hnd1 : (namesOf (phase1Defs o n st)).Nodup :=
    nodup_namesOf_addTagDef _ (nodup_namesOf_addTagDef _ hnd)
  have hL1 : ∀ t ∈ phase1Enum o n st, strStarts o t = true :=
    fun t ht => (mem_tagNamesByPre.mp ht).2
  have hL2 : (phase1Enum o n st).Nodup := tagNamesByPre_nodup hnd1 o
  have hL3 : ∀ t ∈ phase1Enum o n st, t ∈ namesOf (phase1Defs o n st) :=
    fun t ht => (mem_tagNamesByPre.mp ht).1
  obtain ⟨f1, f2, f3, f4, f5, f6, f7, f8, f9⟩ :=
    phase1Fold_facts hsep (phase1Enum o n st) (phase1Defs o n st, [(o, n)])
      hL1 hL2 hL3 hnd1
  have hfold : moveTagPhase1 o n (phase1Defs o n st)
      = (phase1Enum o n st).foldl (moveTagDefStep o n)
          (phase1Defs o n st, [(o, n)]) := rfl
  rw [← hfold] at f1 f2 f4 f5 f6
  simp only [] at f2 f4 f5
  refine ⟨fun t => mem_tagNamesByPre, fun t ht => ⟨f1 t ht,
    fun hto => f6 t ht hto, ?_, ?_⟩, fun x hx => f2 x hx⟩
  · intro hto v hv
    show docOf (moveTagPhase1 o n (phase1Defs o n st)).1 (renameTag o n t) = some v
    have hc := f4 t ht hto (by rw [hv]; rfl)
    rw [hc, hv]
  · intro hto v hv
    show titleOf (moveTagPhase1 o n (phase1Defs o n st)).1 (renameTag o n t) = some v
    have hc := f5 t ht hto (by rw [hv]; rfl)
    rw [hc, hv]

/-- C4: for mutually prefix-free rename arguments, a movetag run sets
`isnow` on every enumerated old definition (including the exact oldtag
match) to its renamed counterpart, and on every lifted node each retagged
application keeps exactly its original value: if the retag dictionary maps
tag `t` to `t2`, the node's application `(t, v)` reappears as `(t2, v)`
with the identical value (None stays None, an interval stays the same
interval). Nodes not carrying the oldtag tree are untouched. (Without the
prefix-freeness side condition value preservation fails: the rename
`foo` to `foo.a` destroys the value of an application `foo.z`.) -/
theorem movetag_preserves_values (o n : String) (st : Store)
    (hnd : (namesOf st.tagdefs).Nodup)
    (hnt : ∀ nd ∈ st.nodes, (nd.tags.map Prod.fst).Nodup)
    (hsep : PreFree o n) :
    (∀ t ∈ phase1Enum o n st,
      isnowOf (moveTag o n st).tagdefs t = some (renameTag o n t)) ∧
    (∀ nd ∈ st.nodes, hasTagUnder nd o = true →
      retagNode (moveTagPhase1 o n (phase1Defs o n st)).2 nd ∈ (moveTag o n st).nodes ∧
      ∀ t v t2, (t, v) ∈ nd.tags →
        lookupRetag (moveTagPhase1 o n (phase1Defs o n st)).2 t = some t2 →
        (t2, v) ∈ (retagNode (moveTagPhase1 o n (phase1Defs o n st)).2 nd).tags) ∧
    (∀ nd ∈ st.nodes, hasTagUnder nd o = false → nd ∈ (moveTag o n st).nodes) := by
  have hnd1 : (namesOf (phase1Defs o n st)).Nodup :=
    nodup_namesOf_addTagDef _ (nodup_namesOf_addTagDef _ hnd)
  have hL1 : ∀ t ∈ phase1Enum o n st, strStarts o t = true :=
    fun t ht => (mem_tagNamesByPre.mp ht).2
  have hL2 : (phase1Enum o n st).Nodup := tagNamesByPre_nodup hnd1 o
  have hL3 : ∀ t ∈ phase1Enum o n st, t ∈ namesOf (phase1Defs o n st) :=
    fun t ht => (mem_tagNamesByPre.mp ht).1
  obtain ⟨f1, f2, f3, f4, f5, f6, f7, f8, f9⟩ :=
    phase1Fold_facts hsep (phase1Enum o n st) (phase1Defs o n st, [(o, n)])
      hL1 hL2 hL3 hnd1
  have hfold : moveTagPhase1 o n (phase1Defs o n st)
      = (phase1Enum o n st).foldl (moveTagDefStep o n)
          (phase1Defs o n st, [(o, n)]) := rfl
  rw [← hfold] at f1
  have hnodes : (moveTag o n st).nodes
      = st.nodes.map (fun m => if hasTagUnder m o then
          retagNode (moveTagPhase1 o n (phase1Defs o n st)).2 m else m) := rfl
  refine ⟨fun t ht => f1 t ht, fun nd hmem hlift => ⟨?_, ?_⟩, fun nd hmem hlift => ?_⟩
  · rw [hnodes]
    refine List.mem_map.mpr ⟨nd, hmem, ?_⟩
    rw [if_pos hlift]
  · intro t v t2 htv hl
    exact retagNode_adds (fun x1 x2 y h1 h2 => retag_inj h1 h2)
      (fun x y h => retag_not_key hsep h) (hnt nd hmem) htv hl
  · rw [hnodes]
    refine List.mem_map.mpr ⟨nd, hmem, ?_⟩
    rw [if_neg (by simp [hlift])]

/-- C4 counterexample: the claim as stated (for EVERY rename) is false.
Renaming `foo` to `foo.a` on a node tagged `foo`, `foo.z` (value (1,1))
and `foo.a.z` (value (2,2)) retags `foo.z` to `foo.a.z` per the retag
dictionary, yet the resulting node carries no application with value
(1,1): the deepest-first walk moves `foo.a.z` to `foo.a.a.z` first and
the later re-add of `foo.z` under `foo.a.z` lands on a name the same walk
then overwrites, so the value (1,1) is destroyed. -/
theorem movetag_value_cex :
    lookupRetag (moveTagPhase1 "foo" "foo.a" (phase1Defs "foo" "foo.a"
        ⟨[⟨"foo", none, none, none⟩, ⟨"foo.z", none, none, none⟩,
          ⟨"foo.a.z", none, none, none⟩],
         [⟨2, [("foo", none), ("foo.z", some (1, 1)), ("foo.a.z", some (2, 2))]⟩]⟩)).2
      "foo.z" = some "foo.a.z" ∧
    (moveTag "foo" "foo.a"
        ⟨[⟨"foo", none, none, none⟩, ⟨"foo.z", none, none, none⟩,
          ⟨"foo.a.z", none, none, none⟩],
         [⟨2, [("foo", none), ("foo.z", some (1, 1)), ("foo.a.z", some (2, 2))]⟩]⟩).nodes
      = [⟨2, [("foo.a.a.z", some (2, 2)), ("foo.a", none)]⟩] ∧
    ((moveTag "foo" "foo.a"
        ⟨[⟨"foo", none, none, none⟩, ⟨"foo.z", none, none, none⟩,
          ⟨"foo.a.z", none, none, none⟩],
         [⟨2, [("foo", none), ("foo.z", some (1, 1)), ("foo.a.z", some (2, 2))]⟩]⟩).nodes.all
      (fun m => m.tags.all (fun tv => tv.2 != some (1, 1)))) = true := by decide

/-- C5 counterexample: the claim as stated (for EVERY rename) is false.
When newtag extends oldtag (`foo` to `foo.x`), the second run enumerates
the definitions created by the first (`foo.x` starts with `foo`) and keeps
rewriting: the stores after one and after two runs differ. -/
theorem movetag_idempotent_cex :
    moveTag "foo" "foo.x" (moveTag "foo" "foo.x"
        ⟨[⟨"foo", none, none, none⟩], [⟨1, [("foo", none)]⟩]⟩)
      ≠ moveTag "foo" "foo.x"
        ⟨[⟨"foo", none, none, none⟩], [⟨1, [("foo", none)]⟩]⟩ := by decide

/-- C6 counterexample: phase 1 does not restrict itself to dotted-path
children. `foo.barbaz` is a plain string extension of `foo.bar` but not a
dotted child (it is neither equal to `foo.bar` nor an extension of
`foo.bar.`), yet renaming `foo.bar` to `zar.qux` rewrites its definition,
setting `isnow` to the corrupted name `zar.quxbaz`. -/
theorem movetag_dotted_cex :
    strStarts "foo.bar" "foo.barbaz" = true ∧
    ¬("foo.bar" = "foo.barbaz" ∨ strStarts ("foo.bar" ++ ".") "foo.barbaz" = true) ∧
    isnowOf (moveTag "foo.bar" "zar.qux"
        ⟨[⟨"foo.bar", none, none, none⟩, ⟨"foo.barbaz", none, none, none⟩],
         []⟩).tagdefs "foo.barbaz" = some "zar.quxbaz" := by decide

/-- C5 witness: the idempotence theorem applied to the spec's own scenario,
renaming `foo.bar` to `zar.qux` (mutually prefix-free) over a store holding
both tag definitions and a node tagged `foo.bar` (None) and `foo.bar.baz`
((100,200)). -/
theorem movetag_idempotent_witness :
    (namesOf ([⟨"foo.bar", none, none, none⟩,
      ⟨"foo.bar.baz", none, none, none⟩] : List TagDef)).Nodup ∧
    PreFree "foo.bar" "zar.qux" ∧
    moveTag "foo.bar" "zar.qux" (moveTag "foo.bar" "zar.qux"
        ⟨[⟨"foo.bar", none, none, none⟩, ⟨"foo.bar.baz", none, none, none⟩],
         [⟨7, [("foo.bar", none), ("foo.bar.baz", some (100, 200))]⟩]⟩)
      = moveTag "foo.bar" "zar.qux"
        ⟨[⟨"foo.bar", none, none, none⟩, ⟨"foo.bar.baz", none, none, none⟩],
         [⟨7, [("foo.bar", none), ("foo.bar.baz", some (100, 200))]⟩]⟩ :=
  ⟨by decide, ⟨by decide, by decide⟩,
    movetag_idempotent "foo.bar" "zar.qux" _ (by decide) ⟨by decide, by decide⟩⟩

/-- C4 witness: the value-preservation theorem applied to the spec's
scenario. Renaming `foo.bar` to `zar.qux` sets `isnow` on both old
definitions and the retagged node keeps `(zar.qux.baz, (100,200))` with
its value intact. -/
theorem movetag_preserves_values_witness :
    isnowOf (moveTag "foo.bar" "zar.qux"
        ⟨[⟨"foo.bar", none, none, none⟩, ⟨"foo.bar.baz", none, none, none⟩],
         [⟨7, [("foo.bar", none), ("foo.bar.baz", some (100, 200))]⟩]⟩).tagdefs
      "foo.bar" = some "zar.qux" ∧
    isnowOf (moveTag "foo.bar" "zar.qux"
        ⟨[⟨"foo.bar", none, none, none⟩, ⟨"foo.bar.baz", none, none, none⟩],
         [⟨7, [("foo.bar", none), ("foo.bar.baz", some (100, 200))]⟩]⟩).tagdefs
      "foo.bar.baz" = some "zar.qux.baz" ∧
    ("zar.qux.baz", some (100, 200)) ∈ (retagNode
      (moveTagPhase1 "foo.bar" "zar.qux" (phase1Defs "foo.bar" "zar.qux"
        ⟨[⟨"foo.bar", none, none, none⟩, ⟨"foo.bar.baz", none, none, none⟩],
         [⟨7, [("foo.bar", none), ("foo.bar.baz", some (100, 200))]⟩]⟩)).2
      ⟨7, [("foo.bar", none), ("foo.bar.baz", some (100, 200))]⟩).tags := by
  have h := movetag_preserves_values "foo.bar" "zar.qux"
    ⟨[⟨"foo.bar", none, none, none⟩, ⟨"foo.bar.baz", none, none, none⟩],
     [⟨7, [("foo.bar", none), ("foo.bar.baz", some (100, 200))]⟩]⟩
    (by decide) (by decide) ⟨by decide, by decide⟩
  refine ⟨?_, ?_, ?_⟩
  · have h1 := h.1 "foo.bar" (by decide)
    rw [h1]; decide
  · have h2 := h.1 "foo.bar.baz" (by decide)
    rw [h2]; decide
  · exact (h.2.1 ⟨7, [("foo.bar", none), ("foo.bar.baz", some (100, 200))]⟩
      (by decide) (by decide)).2 "foo.bar.baz" (some (100, 200)) "zar.qux.baz"
      (by decide) (by decide)

/-- C6 witness: the phase-1 characterization applied to a store holding
definitions `foo.bar` and `foo.barbaz`, renaming `foo.bar` to `zar.qux`:
`foo.barbaz` is enumerated (plain string prefix) and its `isnow` is set to
`zar.quxbaz`. -/
theorem movetag_phase1_rewrites_witness :
    "foo.barbaz" ∈ phase1Enum "foo.bar" "zar.qux"
      ⟨[⟨"foo.bar", none, none, none⟩, ⟨"foo.barbaz", none, none, none⟩], []⟩ ∧
    isnowOf (moveTag "foo.bar" "zar.qux"
        ⟨[⟨"foo.bar", none, none, none⟩, ⟨"foo.barbaz", none, none, none⟩],
         []⟩).tagdefs "foo.barbaz" = some "zar.quxbaz" := by
  have h := movetag_phase1_rewrites "foo.bar" "zar.qux"
    ⟨[⟨"foo.bar", none, none, none⟩, ⟨"foo.barbaz", none, none, none⟩], []⟩
    (by decide) ⟨by decide, by decide⟩
  refine ⟨by decide, ?_⟩
  have h1 := (h.2.1 "foo.barbaz" (by decide)).1
  rw [h1]; decide

end Storm
